import Mathlib

/-!
# Verification of the mackalgo micromouse navigator (`src/Algo.cpp`)

Shallow embedding of the navigation algorithm in `Algo.cpp`.  The repository
ships only `Algo.cpp` and `Assert.h`; the leaf components it uses
(`Maze`, `Heap`, `History`, `API`, `Mode`, `Direction`) are declared elsewhere
and are modelled here from the specification (each such definition carries a
doc comment starting with `Modelled from the spec:`).

Conventions:
* `byte` / `twobyte` C++ values are `Nat` with explicit `% 256` / `% 65536`
  where overflow can occur.
* Directions are numbers `0..3` (NORTH, EAST, SOUTH, WEST), matching the
  `Direction` enum order implied by `directionChars[] = {'n','e','s','w'}`
  and the `(m_d + 1) % 4` turn arithmetic in `Algo::moveOneCell`.
* A cell identifier packs coordinates as `x * HEIGHT + y`
  (modelled from the spec: `Grid` owns coordinate↔identifier conversion;
  any bijective packing is behaviourally equivalent).
* The `exit(1)` performed by the `ASSERT_*` macros of `Assert.h` is modelled
  by an `aborted` flag on the state where a claim depends on it
  (`Algo::moveOneCell`); elsewhere assert-guarded unreachable branches
  return junk values, with a comment at each site.
* `API` calls that only affect the display (`setColor`, `setText`,
  `setWall` indicators, `clearAllColor`) mutate nothing observable and are
  omitted; `Algo::drawPath` and `Algo::colorCenter` are display-only and are
  therefore not embedded.
-/

/-- Build-time configuration: `Maze::WIDTH`/`HEIGHT`, the center goal
rectangle `Maze::CLLX/CLLY/CURX/CURY`, the `FAST_STRAIGHT_AWAYS` toggle and
`Algo::m_initialDirection` (modelled from the spec: configuration constants
passed to the navigator; their declarations live outside `src/`). -/
structure Cfg where
  W : Nat
  H : Nat
  cllx : Nat
  clly : Nat
  curx : Nat
  cury : Nat
  fast : Bool
  initialDirection : Nat
deriving DecidableEq

/-- The goal mode of `Mode.h` (modelled from the spec: goal-mode is one of
CENTER, ORIGIN or the terminal GIVEUP). -/
inductive Mode where
  | CENTER : Mode
  | ORIGIN : Mode
  | GIVEUP : Mode
deriving DecidableEq

namespace Direction

/-- `Direction::NORTH` -/
@[simp] def NORTH : Nat := 0
/-- `Direction::EAST` -/
@[simp] def EAST : Nat := 1
/-- `Direction::SOUTH` -/
@[simp] def SOUTH : Nat := 2
/-- `Direction::WEST` -/
@[simp] def WEST : Nat := 3

end Direction

/-- The whole mutable state owned by the algorithm: the per-cell grid data of
`Maze` (modelled from the spec: wall known/present bits, distance, discovered
flag, optional traversal pointer as a has-next bit plus a direction value that
survives `clearNext`, and the straightaway run-length counter), the `History`
stack, and the mouse state `m_x/m_y/m_d/m_mode` of `Algo`.  `aborted` models
`exit(1)` from a failed assertion; `polls` counts calls to
`API::wasReset()` so that a reset-signal oracle can be indexed by time. -/
structure St where
  known : Nat → Nat → Bool
  wallp : Nat → Nat → Bool
  distance : Nat → Nat
  discovered : Nat → Bool
  hasNext : Nat → Bool
  nextDir : Nat → Nat
  runLen : Nat → Nat
  hist : List (Nat × Nat)
  mx : Nat
  my : Nat
  md : Nat
  mode : Mode
  aborted : Bool
  polls : Nat

/-- Pointwise update of a two-argument boolean map. -/
def upd2 (f : Nat → Nat → Bool) (c d : Nat) (v : Bool) : Nat → Nat → Bool :=
  fun c' d' => if c' = c ∧ d' = d then v else f c' d'

/-- Pointwise update of a one-argument map. -/
def upd1 {α : Type} (f : Nat → α) (c : Nat) (v : α) : Nat → α :=
  fun c' => if c' = c then v else f c'

namespace Maze

/-- `Maze::getCell` (modelled from the spec: coordinate→identifier
conversion). -/
def getCell (cfg : Cfg) (x y : Nat) : Nat := x * cfg.H + y

/-- `Maze::getX` (modelled from the spec: identifier→coordinate
conversion). -/
def getX (cfg : Cfg) (c : Nat) : Nat := c / cfg.H

/-- `Maze::getY` (modelled from the spec: identifier→coordinate
conversion). -/
def getY (cfg : Cfg) (c : Nat) : Nat := c % cfg.H

/-- `Maze::isKnown` (modelled from the spec: query wall knowledge for a
(cell, direction) pair). -/
def isKnown (s : St) (c d : Nat) : Bool := s.known c d

/-- `Maze::isWall` (modelled from the spec: a wall counts as blocking
exactly when it is known and present — the search relaxes every direction
"where no wall is known-present"). -/
def isWall (s : St) (c d : Nat) : Bool := s.known c d && s.wallp c d

/-- `Maze::setWall` (modelled from the spec: set wall knowledge and presence
for one side only). -/
def setWall (s : St) (c d : Nat) (w : Bool) : St :=
  { s with known := upd2 s.known c d true, wallp := upd2 s.wallp c d w }

/-- `Maze::clearWall` (modelled from the spec: revert one side of a wall to
unknown; the stale presence bit is meaningless while unknown). -/
def clearWall (s : St) (c d : Nat) : St :=
  { s with known := upd2 s.known c d false }

/-- `Maze::setDistance` (modelled from the spec). -/
def setDistance (s : St) (c v : Nat) : St :=
  { s with distance := upd1 s.distance c v }

/-- `Maze::getDistance` (modelled from the spec). -/
def getDistance (s : St) (c : Nat) : Nat := s.distance c

/-- `Maze::setDiscovered` (modelled from the spec). -/
def setDiscovered (s : St) (c : Nat) (v : Bool) : St :=
  { s with discovered := upd1 s.discovered c v }

/-- `Maze::getDiscovered` (modelled from the spec). -/
def getDiscovered (s : St) (c : Nat) : Bool := s.discovered c

/-- `Maze::setNextDirection` (modelled from the spec: the traversal pointer
is an optional direction; setting it stores the direction value and marks the
pointer present). -/
def setNextDirection (s : St) (c d : Nat) : St :=
  { s with hasNext := upd1 s.hasNext c true, nextDir := upd1 s.nextDir c d }

/-- `Maze::getNextDirection` (modelled from the spec: reads the stored
direction value, which survives `clearNext` — absence is a separate
sentinel bit). -/
def getNextDirection (s : St) (c : Nat) : Nat := s.nextDir c

/-- `Maze::clearNext` (modelled from the spec: absence of the traversal
pointer is a distinct sentinel; only the presence bit is cleared). -/
def clearNext (s : St) (c : Nat) : St :=
  { s with hasNext := upd1 s.hasNext c false }

/-- `Maze::hasNext` (modelled from the spec). -/
def hasNext (s : St) (c : Nat) : Bool := s.hasNext c

/-- `Maze::setStraightAwayLength` (modelled from the spec). -/
def setStraightAwayLength (s : St) (c v : Nat) : St :=
  { s with runLen := upd1 s.runLen c v }

/-- `Maze::getStraightAwayLength` (modelled from the spec). -/
def getStraightAwayLength (s : St) (c : Nat) : Nat := s.runLen c

end Maze

namespace Algo

/-- `Algo::getTurnCost`. -/
def getTurnCost (cfg : Cfg) : Nat :=
  if cfg.fast then 256 else 2

/-- `Algo::getStraightAwayCost`.  C++ evaluates `256 / length` in `int`
arithmetic; for `length = 0` the C++ program would divide by zero (undefined
behaviour), while Lean's `Nat` division returns 0 — all theorems about this
function restrict to `1 ≤ length`. -/
def getStraightAwayCost (cfg : Cfg) (length : Nat) : Nat :=
  if cfg.fast then 256 / length else 3

/-- `Algo::getOppositeDirection`.  The `default:` branch runs
`ASSERT_TR(false)`; it is modelled by the junk value 0 (every call site
passes a direction `< 4`). -/
def getOppositeDirection (d : Nat) : Nat :=
  match d with
  | 0 => Direction.SOUTH
  | 1 => Direction.WEST
  | 2 => Direction.NORTH
  | 3 => Direction.EAST
  | _ => 0

/-- `Algo::hasNeighboringCell`.  A direction value `≥ 4` falls off the end of
the C++ switch (undefined); modelled as `false`. -/
def hasNeighboringCell (cfg : Cfg) (c d : Nat) : Bool :=
  let x := Maze.getX cfg c
  let y := Maze.getY cfg c
  match d with
  | 0 => y + 1 < cfg.H
  | 1 => x + 1 < cfg.W
  | 2 => 0 < y
  | 3 => 0 < x
  | _ => false

/-- `Algo::getNeighboringCell`.  The function asserts
`hasNeighboringCell`; when the assert would fail (and the C++ process would
exit) the junk value `c` is returned — every theorem that depends on this
function carries the neighbour-existence fact. -/
def getNeighboringCell (cfg : Cfg) (c d : Nat) : Nat :=
  let x := Maze.getX cfg c
  let y := Maze.getY cfg c
  match d with
  | 0 => Maze.getCell cfg x (y + 1)
  | 1 => Maze.getCell cfg (x + 1) y
  | 2 => Maze.getCell cfg x (y - 1)
  | 3 => Maze.getCell cfg (x - 1) y
  | _ => c

/-- `Algo::inCenter`: the double loop over `[CLLX,CURX] × [CLLY,CURY]`
returns true iff `(x, y)` occurs among the enumerated pairs. -/
def inCenter (cfg : Cfg) (x y : Nat) : Bool :=
  (List.range' cfg.cllx (cfg.curx + 1 - cfg.cllx)).any fun xx =>
    (List.range' cfg.clly (cfg.cury + 1 - cfg.clly)).any fun yy =>
      x = xx && y = yy

/-- `Algo::inOrigin`. -/
def inOrigin (x y : Nat) : Bool := x = 0 && y = 0

end Algo

namespace Algo

/-- The single-side body of `Algo::setCellWall` (its `bothSides = false`
instantiation): `Maze::setWall` plus a display call that is omitted. -/
def setCellWallSingle (s : St) (c d : Nat) (w : Bool) : St :=
  Maze.setWall s c d w

/-- `Algo::setCellWall` with `bothSides = true` (the default argument used by
`Algo::solve` and `Algo::readWalls`; modelled from the spec: the symmetric
update to the neighbour is propagated automatically).  The recursive call
with `bothSides = false` is the single-side body. -/
def setCellWall (cfg : Cfg) (s : St) (c d : Nat) (w : Bool) : St :=
  let s1 := setCellWallSingle s c d w
  if hasNeighboringCell cfg c d then
    setCellWallSingle s1 (getNeighboringCell cfg c d) (getOppositeDirection d) w
  else s1

/-- The single-side body of `Algo::unsetCellWall` (its `bothSides = false`
instantiation): `Maze::clearWall` plus a display call that is omitted. -/
def unsetCellWallSingle (s : St) (c d : Nat) : St :=
  Maze.clearWall s c d

/-- `Algo::unsetCellWall` with `bothSides = true` (as called from
`Algo::reset`). -/
def unsetCellWall (cfg : Cfg) (s : St) (c d : Nat) : St :=
  let s1 := unsetCellWallSingle s c d
  if hasNeighboringCell cfg c d then
    unsetCellWallSingle s1 (getNeighboringCell cfg c d) (getOppositeDirection d)
  else s1

/-- `Algo::setCellDistance`: `Maze::setDistance` plus a display call that is
omitted. -/
def setCellDistance (s : St) (c v : Nat) : St :=
  Maze.setDistance s c v

end Algo

/-- The grid and mouse state at program start, before `Algo::solve` runs
(modelled from the spec: statically zero-initialised storage — all walls
unknown, all counters zero, the history empty). -/
def freshSt : St where
  known := fun _ _ => false
  wallp := fun _ _ => false
  distance := fun _ => 0
  discovered := fun _ => false
  hasNext := fun _ => false
  nextDir := fun _ => 0
  runLen := fun _ => 0
  hist := []
  mx := 0
  my := 0
  md := 0
  mode := Mode.CENTER
  aborted := false
  polls := 0

namespace Algo

/-- The body of the perimeter-initialisation loop of `Algo::solve`
(lines 40–55) for one coordinate pair `(x, y)`: four conditional
`setCellWall(·, ·, true)` calls. -/
def initCellBody (cfg : Cfg) (s : St) (x y : Nat) : St :=
  let s := if x = 0 then
    setCellWall cfg s (Maze.getCell cfg x y) Direction.WEST true else s
  let s := if y = 0 then
    setCellWall cfg s (Maze.getCell cfg x y) Direction.SOUTH true else s
  let s := if x = cfg.W - 1 then
    setCellWall cfg s (Maze.getCell cfg x y) Direction.EAST true else s
  let s := if y = cfg.H - 1 then
    setCellWall cfg s (Maze.getCell cfg x y) Direction.NORTH true else s
  s

/-- The perimeter-initialisation double loop of `Algo::solve`. -/
def initPerimeter (cfg : Cfg) (s : St) : St :=
  (List.range cfg.W).foldl (fun s x =>
    (List.range cfg.H).foldl (fun s y => initCellBody cfg s x y) s) s

/-- The state after the initialisation phase of `Algo::solve`
(lines 39–61): perimeter walls set, mouse at (0,0) heading NORTH in
CENTER mode. -/
def initState (cfg : Cfg) : St :=
  { initPerimeter cfg freshSt with
    mx := 0, my := 0, md := Direction.NORTH, mode := Mode.CENTER }

end Algo

/-- The external boundary consumed by the navigator (modelled from the spec:
wall queries are relative to the mouse's current heading at its current
cell; the reset signal is polled, so the oracle is indexed by the poll
counter).  `wallFront x y h` answers `API::wallFront()` when the mouse is at
`(x, y)` heading `h`; similarly for right and left. -/
structure Api where
  wallFront : Nat → Nat → Nat → Bool
  wallRight : Nat → Nat → Nat → Bool
  wallLeft : Nat → Nat → Nat → Bool
  wasReset : Nat → Bool

namespace History

/-- `History::add` (modelled from the spec: a DiscoveryLog entry is
"appended whenever wall-sensing learns previously-unknown walls at the
current cell" — an add with no learned bit therefore records nothing; the
newest entry sits at the head so that `pop` drains newest-first). -/
def add (cell data : Nat) (hist : List (Nat × Nat)) : List (Nat × Nat) :=
  if data ≠ 0 then (cell, data) :: hist else hist

end History

namespace Algo

/-- `Algo::resetButtonPressed` = `API::wasReset()`: returns the pending flag
and advances the poll counter. -/
def resetButtonPressed (api : Api) (s : St) : Bool × St :=
  (api.wasReset s.polls, { s with polls := s.polls + 1 })

/-- `Algo::readWall`: dispatch on `(direction - m_d + 4) % 4`
(all quantities below 4, so Nat arithmetic `direction + 4 - m_d` agrees with
the C++ byte arithmetic when `m_d < 4`).  The fall-through case 2 is
guarded by `ASSERT_TR(false)`; modelled by the junk value `false`
(`readWalls` only ever asks for left/front/right). -/
def readWall (api : Api) (s : St) (direction : Nat) : Bool :=
  match (direction + 4 - s.md) % 4 with
  | 0 => api.wallFront s.mx s.my s.md
  | 1 => api.wallRight s.mx s.my s.md
  | 3 => api.wallLeft s.mx s.my s.md
  | _ => false

/-- One iteration of the sensing loop in `Algo::readWalls` for loop index
`i ∈ {0, 1, 2}` standing for the C++ `i ∈ {-1, 0, 1}` (the sensed direction
is `(m_d + i + 4) % 4`, i.e. `(m_d + i + 3) % 4` with our shifted index):
if the wall is not already known, read it, update both sides, and set the
learned/wall bits of the history data. -/
def readWallsIter (cfg : Cfg) (api : Api) (sd : St × Nat) (i : Nat) : St × Nat :=
  let s := sd.1
  let data := sd.2
  let direction := (s.md + i + 3) % 4
  if Maze.isKnown s (Maze.getCell cfg s.mx s.my) direction then sd
  else
    let isW := readWall api s direction
    let s := setCellWall cfg s (Maze.getCell cfg s.mx s.my) direction isW
    let data := data ||| (1 <<< (direction + 4))
    let data := if isW then data ||| (1 <<< direction) else data
    (s, data)

/-- `Algo::readWalls` (lines 488–515). -/
def readWalls (cfg : Cfg) (api : Api) (s : St) : St :=
  let cell := Maze.getCell cfg s.mx s.my
  let sd := (List.range 3).foldl (readWallsIter cfg api) (s, 0)
  { sd.1 with hist := History.add cell sd.2 sd.1.hist }

/-- The inner loop of `Algo::reset` for one popped history entry: undo the
walls whose learned bit `(data >> (direction + 4)) & 1` is set. -/
def undoEntry (cfg : Cfg) (s : St) (e : Nat × Nat) : St :=
  (List.range 4).foldl (fun s direction =>
    if e.2.testBit (direction + 4) then unsetCellWall cfg s e.1 direction
    else s) s

/-- `Algo::reset` (lines 112–135): acknowledge the button (display/API
effect omitted), restore the mouse pose and mode, clear the origin cell's
run length, then pop the whole history newest-first undoing every recorded
wall. -/
def reset (cfg : Cfg) (s : St) : St :=
  let s := { s with mx := 0, my := 0, md := cfg.initialDirection,
                    mode := Mode.CENTER }
  let s := Maze.setStraightAwayLength s (Maze.getCell cfg 0 0) 0
  let s := s.hist.foldl (undoEntry cfg) s
  { s with hist := [] }

end Algo

namespace Heap

/-- `Heap::push` (modelled from the spec: inserts a not-yet-present cell). -/
def push (h : List Nat) (c : Nat) : List Nat := h ++ [c]

/-- `Heap::pop` (modelled from the spec: removes and returns the cell with
smallest current distance; ties broken deterministically — here the earliest
inserted minimum).  Callers only pop non-empty heaps; the empty case returns
junk. -/
def pop (dist : Nat → Nat) (h : List Nat) : Nat × List Nat :=
  match h with
  | [] => (0, [])
  | x :: xs =>
    let best := xs.foldl (fun b c => if dist c < dist b then c else b) x
    (best, h.erase best)

/-- `Heap::update` (modelled from the spec: `decreaseKey` re-establishes
heap order after a key decrease; with the pop-time minimum scan above the
list itself needs no rearrangement). -/
def update (h : List Nat) (_c : Nat) : List Nat := h

end Heap

namespace Algo

/-- `Algo::resetDestinationCellDistances` (lines 352–364). -/
def resetDestinationCellDistances (cfg : Cfg) (s : St) : St :=
  if s.mode = Mode.CENTER then
    (List.range' cfg.cllx (cfg.curx + 1 - cfg.cllx)).foldl (fun s x =>
      (List.range' cfg.clly (cfg.cury + 1 - cfg.clly)).foldl (fun s y =>
        setCellDistance s (Maze.getCell cfg x y) 65535) s) s
  else
    setCellDistance s (Maze.getCell cfg 0 0) 65535

/-- `Algo::getClosestDestinationCell` (lines 366–382). -/
def getClosestDestinationCell (cfg : Cfg) (s : St) : Nat :=
  let closest := Maze.getCell cfg cfg.cllx cfg.clly
  if s.mode = Mode.CENTER then
    (List.range' cfg.cllx (cfg.curx + 1 - cfg.cllx)).foldl (fun closest x =>
      (List.range' cfg.clly (cfg.cury + 1 - cfg.clly)).foldl (fun closest y =>
        let other := Maze.getCell cfg x y
        if Maze.getDistance s other < Maze.getDistance s closest then other
        else closest) closest) closest
  else
    Maze.getCell cfg 0 0

/-- `Algo::checkNeighbor` (lines 275–311), acting on the state and the
heap. -/
def checkNeighbor (cfg : Cfg) (s : St) (h : List Nat) (cell direction : Nat) :
    St × List Nat :=
  let neighbor := getNeighboringCell cfg cell direction
  let directionFromNeighbor := getOppositeDirection direction
  -- `twobyte costToNeighbor = ...`: the sum is truncated to 16 bits.
  let costToNeighbor := (Maze.getDistance s cell +
    (if Maze.getNextDirection s cell = directionFromNeighbor then
      getStraightAwayCost cfg (Maze.getStraightAwayLength s cell + 1)
    else getTurnCost cfg)) % 65536
  if ¬ Maze.getDiscovered s neighbor ∨
      costToNeighbor < Maze.getDistance s neighbor then
    let s := setCellDistance s neighbor costToNeighbor
    let s := Maze.setNextDirection s neighbor directionFromNeighbor
    let s := Maze.setStraightAwayLength s neighbor
      (if Maze.getNextDirection s cell = directionFromNeighbor then
        Maze.getStraightAwayLength s cell + 1 else 1)
    if ¬ Maze.getDiscovered s neighbor then
      (Maze.setDiscovered s neighbor true, Heap.push h neighbor)
    else
      (s, Heap.update h neighbor)
  else (s, h)

/-- The while-loop of the `reverseLinkedList` walk (lines 318–324),
fuel-limited: the C++ loop runs until a cell without a next pointer is
reached (and would diverge on a cyclic pointer configuration, which the fuel
models as `none`).  The dead `closest` variable of the source does not
influence the result and is dropped. -/
def revLLAux (cfg : Cfg) : Nat → St → Nat → Nat → Option (St × Nat)
  | 0, _, _, _ => none
  | fuel + 1, s, direction, current =>
    if Maze.hasNext s current then
      let temp := Maze.getNextDirection s current
      let s := Maze.setNextDirection s current (getOppositeDirection direction)
      revLLAux cfg fuel s temp (getNeighboringCell cfg current temp)
    else
      some (Maze.setNextDirection s current (getOppositeDirection direction),
        current)

/-- `Algo::reverseLinkedList` (lines 313–327). -/
def reverseLinkedList (cfg : Cfg) (fuel : Nat) (s : St) (cell : Nat) :
    Option (St × Nat) :=
  let closest := cell
  let direction := Maze.getNextDirection s closest
  let current := getNeighboringCell cfg closest direction
  let s := Maze.clearNext s closest
  revLLAux cfg fuel s direction current

/-- One iteration of the Dijkstra loop of `Algo::generatePath`
(lines 200–214): pop the minimum, relax the four directions that carry no
known-present wall, and stop when the closest destination cell has been
popped (clearing the heap).  Returns `none` when the loop is done, carrying
the final state. -/
def dijkstraIter (cfg : Cfg) (s : St) (h : List Nat) :
    (St × List Nat) ⊕ St :=
  match h with
  | [] => Sum.inr s
  | _ =>
    let (cell, h) := Heap.pop s.distance h
    let sh := (List.range 4).foldl (fun (sh : St × List Nat) direction =>
      if ¬ Maze.isWall sh.1 cell direction then
        checkNeighbor cfg sh.1 sh.2 cell direction
      else sh) (s, h)
    -- `shouldColorVisitedCells()` is `false`, so no display call happens.
    if cell = getClosestDestinationCell cfg sh.1 then Sum.inr sh.1
    else Sum.inl sh

/-- The fuel-limited Dijkstra loop.  Every cell is pushed at most once
(pushes happen only on first discovery), so `W * H + 1` fuel always
suffices; `none` reports fuel exhaustion. -/
def dijkstraLoop (cfg : Cfg) : Nat → St → List Nat → Option St
  | 0, _, _ => none
  | fuel + 1, s, h =>
    match dijkstraIter cfg s h with
    | Sum.inr s => some s
    | Sum.inl (s, h) => dijkstraLoop cfg fuel s h

/-- `Algo::generatePath` (lines 170–221).  The `ASSERT_EQ(Heap::size(), 0)`
at the head of the search holds because the previous pass always left the
(global) heap empty; the heap is therefore modelled as starting empty.
Returns the final state and the start identifier, or `none` on fuel
exhaustion (never reached in the runs proved below). -/
def generatePath (cfg : Cfg) (s : St) (start : Nat) : Option (St × Nat) :=
  -- Reset the discovered bit of all cells.
  let s := (List.range cfg.W).foldl (fun s x =>
    (List.range cfg.H).foldl (fun s y =>
      Maze.setDiscovered s (Maze.getCell cfg x y) false) s) s
  -- Initialize the starting cell.
  let s := Maze.setDiscovered s start true
  let s := setCellDistance s start 0
  let s := Maze.setNextDirection s start (getOppositeDirection s.md)
  let s := Maze.clearNext s start
  let s := resetDestinationCellDistances cfg s
  let fuel := cfg.W * cfg.H + 1
  match dijkstraLoop cfg fuel s (Heap.push [] start) with
  | none => none
  | some s =>
    match reverseLinkedList cfg fuel s (getClosestDestinationCell cfg s) with
    | none => none
    | some (s, c) => some (s, c)

end Algo

namespace Algo

/-- `Algo::isOneCellAway` (lines 435–454).  The C++ coordinate comparisons
`m_y + 1 == y` / `m_y - 1 == y` are on bytes; positions stay far below 255
in every run considered, and `my - 1` is guarded by `y` being a valid
coordinate in the same comparison (`Nat` truncation at 0 coincides with the
byte result only away from wrap-around, which no reachable pose hits). -/
def isOneCellAway (cfg : Cfg) (s : St) (target : Nat) : Bool :=
  let x := Maze.getX cfg target
  let y := Maze.getY cfg target
  if s.mx = x && s.my + 1 = y && ¬ Maze.isWall s (Maze.getCell cfg s.mx s.my) Direction.NORTH then
    true
  else if s.mx = x && y + 1 = s.my && ¬ Maze.isWall s (Maze.getCell cfg s.mx s.my) Direction.SOUTH then
    true
  else if s.mx + 1 = x && s.my = y && ¬ Maze.isWall s (Maze.getCell cfg s.mx s.my) Direction.EAST then
    true
  else if x + 1 = s.mx && s.my = y && ¬ Maze.isWall s (Maze.getCell cfg s.mx s.my) Direction.WEST then
    true
  else
    false

/-- `Algo::turnLeftUpdateState`. -/
def turnLeftUpdateState (s : St) : St := { s with md := (s.md + 3) % 4 }

/-- `Algo::turnRightUpdateState`. -/
def turnRightUpdateState (s : St) : St := { s with md := (s.md + 1) % 4 }

/-- `Algo::turnAroundUpdateState`. -/
def turnAroundUpdateState (s : St) : St := { s with md := (s.md + 2) % 4 }

/-- `Algo::moveForwardUpdateState`: `m_x`/`m_y` are bytes, so the ±1 update
is taken mod 256 (`m_x - 1` on a byte is `m_x + 255` mod 256). -/
def moveForwardUpdateState (s : St) : St :=
  { s with
    mx := (s.mx + (if s.md = Direction.EAST then 1
      else if s.md = Direction.WEST then 255 else 0)) % 256,
    my := (s.my + (if s.md = Direction.NORTH then 1
      else if s.md = Direction.SOUTH then 255 else 0)) % 256 }

/-- `Algo::moveForward` (the `API::moveForward()` actuation is external). -/
def moveForward (s : St) : St := moveForwardUpdateState s

/-- `Algo::leftAndForward`. -/
def leftAndForward (s : St) : St := moveForwardUpdateState (turnLeftUpdateState s)

/-- `Algo::rightAndForward`. -/
def rightAndForward (s : St) : St := moveForwardUpdateState (turnRightUpdateState s)

/-- `Algo::aroundAndForward`. -/
def aroundAndForward (s : St) : St := moveForwardUpdateState (turnAroundUpdateState s)

/-- `Algo::moveOneCell` (lines 456–486).  A failing
`ASSERT_TR(isOneCellAway(target))` exits the process, modelled by the
`aborted` flag (state frozen from that point on). -/
def moveOneCell (cfg : Cfg) (s : St) (target : Nat) : St :=
  if ¬ isOneCellAway cfg s target then { s with aborted := true }
  else
    let x := Maze.getX cfg target
    let y := Maze.getY cfg target
    let moveDirection :=
      if x > s.mx then Direction.EAST
      else if y < s.my then Direction.SOUTH
      else if x < s.mx then Direction.WEST
      else Direction.NORTH
    if moveDirection = s.md then moveForward s
    else if moveDirection = (s.md + 1) % 4 then rightAndForward s
    else if moveDirection = (s.md + 2) % 4 then aroundAndForward s
    else if moveDirection = (s.md + 3) % 4 then leftAndForward s
    else s

/-- The while-loop of `Algo::followPath` (lines 245–264), fuel-limited (the
C++ loop can diverge on a cyclic pointer chain, modelled by fuel
exhaustion, which simply stops).  `History::move()` mutates nothing
modelled here (spec: a move-boundary marker whose exact semantics are an
open question and which the drain-everything reset does not depend on). -/
def followPathAux (cfg : Cfg) (api : Api) : Nat → St → Nat → St
  | 0, s, _ => s
  | fuel + 1, s, current =>
    if Maze.hasNext s current ∧
        Maze.isKnown s current (Maze.getNextDirection s current) then
      let next := getNeighboringCell cfg current (Maze.getNextDirection s current)
      let s := moveOneCell cfg s next
      if s.aborted then s
      else
        let (pressed, s) := resetButtonPressed api s
        if pressed then s
        else followPathAux cfg api fuel s next
    else s

/-- `Algo::followPath`. -/
def followPath (cfg : Cfg) (api : Api) (s : St) (start : Nat) : St :=
  followPathAux cfg api (cfg.W * cfg.H + 1) s start

/-- The goal-check tail of `Algo::step` (lines 160–167): two sequential
conditionals on the mode. -/
def stepGoalUpdate (cfg : Cfg) (mode : Mode) (x y : Nat) : Mode :=
  let m := if mode = Mode.CENTER ∧ inCenter cfg x y then Mode.ORIGIN else mode
  if m = Mode.ORIGIN ∧ inOrigin x y then Mode.CENTER else m

/-- `Algo::step` (lines 137–168).  `drawPath` is display-only and omitted.
Fuel exhaustion inside `generatePath` (never reached in the runs proved
below) is surfaced through the `aborted` flag. -/
def step (cfg : Cfg) (api : Api) (s : St) : St :=
  let s := readWalls cfg api s
  let current := Maze.getCell cfg s.mx s.my
  match generatePath cfg s current with
  | none => { s with aborted := true }
  | some (s, start) =>
    if start ≠ current then { s with mode := Mode.GIVEUP }
    else
      let s := followPath cfg api s start
      if s.aborted then s
      else { s with mode := stepGoalUpdate cfg s.mode s.mx s.my }

/-- `n` iterations of the main loop of `Algo::solve` (lines 64–85): poll the
reset button, service it, perform a step, and exit on GIVEUP.  An aborted
state (a failed assertion killed the process) performs no further
iterations. -/
def runLoopN (cfg : Cfg) (api : Api) : Nat → St → St
  | 0, s => s
  | n + 1, s =>
    if s.aborted ∨ s.mode = Mode.GIVEUP then s
    else
      let (pressed, s) := resetButtonPressed api s
      let s := if pressed then reset cfg s else s
      let s := step cfg api s
      runLoopN cfg api n s

end Algo

section Connectivity

/-- An edge of the grid is open for planning when the cell has a neighbour
in that direction and no wall is known-present across it (this is the
claim's notion of "presently known open edges"; `Algo::generatePath` relaxes
exactly the directions with `¬ isWall`). -/
def openEdge (cfg : Cfg) (s : St) (c d : Nat) : Bool :=
  Algo.hasNeighboringCell cfg c d && ¬ Maze.isWall s c d

/-- One round of reachable-set expansion across open edges. -/
def expandOpen (cfg : Cfg) (s : St) (l : List Nat) : List Nat :=
  l ++ ((List.range (cfg.W * cfg.H)).filter fun c =>
    decide (c ∉ l) && l.any fun c' =>
      (List.range 4).any fun d =>
        openEdge cfg s c' d && Algo.getNeighboringCell cfg c' d = c)

/-- The set of cells reachable from `c0` through open edges
(`W * H` expansion rounds saturate). -/
def reachableCells (cfg : Cfg) (s : St) (c0 : Nat) : List Nat :=
  (cfg.W * cfg.H).iterate (expandOpen cfg s) [c0]

/-- The cells of the active goal region: the center rectangle in CENTER
mode, the origin otherwise. -/
def goalCells (cfg : Cfg) (mode : Mode) : List Nat :=
  if mode = Mode.CENTER then
    (List.range' cfg.cllx (cfg.curx + 1 - cfg.cllx)).flatMap fun x =>
      (List.range' cfg.clly (cfg.cury + 1 - cfg.clly)).map fun y =>
        Maze.getCell cfg x y
  else [Maze.getCell cfg 0 0]

/-- Whether the cell `c0` is connected to the active goal region under
presently known open edges. -/
def connectedToGoal (cfg : Cfg) (s : St) (c0 : Nat) : Bool :=
  (goalCells cfg s.mode).any fun g => g ∈ reachableCells cfg s c0

end Connectivity

section FailingRun

/-- The 2×2 configuration of the failing run: center region is the single
cell (1,1), simple cost regime, initial direction NORTH. -/
def cfg2 : Cfg := ⟨2, 2, 1, 1, 1, 1, false, 0⟩

/-- The physical walls of the failing 2×2 maze: both columns are fully
separated (a wall across every east/west interior edge), plus the
perimeter.  The maze is unsolvable: (0,0) cannot reach (1,1). -/
def mazeWall2 (_x y d : Nat) : Bool :=
  if d = 0 then y = 1
  else if d = 1 then true
  else if d = 2 then y = 0
  else if d = 3 then true
  else false

/-- The boundary oracle of the failing run: sensors report `mazeWall2`,
and the reset button is never pressed. -/
def api2 : Api where
  wallFront := fun x y h => mazeWall2 x y h
  wallRight := fun x y h => mazeWall2 x y ((h + 1) % 4)
  wallLeft := fun x y h => mazeWall2 x y ((h + 3) % 4)
  wasReset := fun _ => false

/-- The state after the first main-loop iteration of the failing run. -/
def failSt1 : St := Algo.runLoopN cfg2 api2 1 (Algo.initState cfg2)

/-- The state of the second step after its sensing phase (the input of the
second `generatePath` call). -/
def failSt2 : St := Algo.readWalls cfg2 api2 failSt1

end FailingRun

/-! ## Derived definitions: invariants, chains, and concrete witnesses -/

/-- A 16×16 configuration in the fast-straightaways regime. -/
def cfgFast : Cfg := ⟨16, 16, 7, 7, 8, 8, true, 0⟩

/-- A degenerate 1×1 configuration whose center region is the single cell
(0,0), i.e. the center region contains the origin. -/
def cfg11 : Cfg := ⟨1, 1, 0, 0, 0, 0, false, 0⟩

/-- The perimeter conditions under which the initialisation loop of
`Algo::solve` sets a wall at coordinate `(x, y)`: WEST at `x = 0`, SOUTH at
`y = 0`, EAST at `x = W-1`, NORTH at `y = H-1`. -/
def perimHit (cfg : Cfg) (x y d : Nat) : Prop :=
  (d = Direction.WEST ∧ x = 0) ∨ (d = Direction.SOUTH ∧ y = 0) ∨
  (d = Direction.EAST ∧ x = cfg.W - 1) ∨ (d = Direction.NORTH ∧ y = cfg.H - 1)

instance (cfg : Cfg) (x y d : Nat) : Decidable (perimHit cfg x y d) := by
  unfold perimHit; infer_instance

/-- `s'` agrees with `s` on every field except possibly the wall maps. -/
def wallsOnlyExt (s s' : St) : Prop :=
  s'.distance = s.distance ∧ s'.discovered = s.discovered ∧
  s'.hasNext = s.hasNext ∧ s'.nextDir = s.nextDir ∧ s'.runLen = s.runLen ∧
  s'.hist = s.hist ∧ s'.mx = s.mx ∧ s'.my = s.my ∧ s'.md = s.md ∧
  s'.mode = s.mode ∧ s'.aborted = s.aborted ∧ s'.polls = s.polls

/-- Wall symmetry: a known wall is known from both sides with the same
presence value. -/
def SymmWalls (cfg : Cfg) (s : St) : Prop :=
  ∀ c d, c < cfg.W * cfg.H → d < 4 → Algo.hasNeighboringCell cfg c d = true →
    s.known c d = s.known (Algo.getNeighboringCell cfg c d)
      (Algo.getOppositeDirection d) ∧
    s.wallp c d = s.wallp (Algo.getNeighboringCell cfg c d)
      (Algo.getOppositeDirection d)

/-- Every perimeter wall (a direction without a neighbour) is known and
present. -/
def PerimKnown (cfg : Cfg) (s : St) : Prop :=
  ∀ c d, c < cfg.W * cfg.H → d < 4 →
    Algo.hasNeighboringCell cfg c d = false →
    s.known c d = true ∧ s.wallp c d = true

/-- Every history entry names a valid cell and its learned bits name
interior (neighbour-having) directions. -/
def HistOK (cfg : Cfg) (s : St) : Prop :=
  ∀ e ∈ s.hist, e.1 < cfg.W * cfg.H ∧
    ∀ d, d < 4 → e.2.testBit (d + 4) = true →
      Algo.hasNeighboringCell cfg e.1 d = true

/-- A wall side `(c, d)` is recorded by the pending data bits of a sensing
pass rooted at `cell`. -/
def coveredByData (cfg : Cfg) (cell data c d : Nat) : Prop :=
  ∃ d', d' < 4 ∧ data.testBit (d' + 4) = true ∧
    ((c = cell ∧ d = d') ∨
     (Algo.hasNeighboringCell cfg cell d' = true ∧
      c = Algo.getNeighboringCell cfg cell d' ∧
      d = Algo.getOppositeDirection d'))

/-- A wall side `(c, d)` is recorded by some history entry. -/
def Covered (cfg : Cfg) (hist : List (Nat × Nat)) (c d : Nat) : Prop :=
  ∃ e ∈ hist, coveredByData cfg e.1 e.2 c d

/-- Every known interior wall has been recorded in the history. -/
def CoverInv (cfg : Cfg) (s : St) : Prop :=
  ∀ c d, c < cfg.W * cfg.H → d < 4 →
    Algo.hasNeighboringCell cfg c d = true → s.known c d = true →
    Covered cfg s.hist c d

/-- The combined wall/history invariant of the navigator. -/
def WallInv (cfg : Cfg) (s : St) : Prop :=
  SymmWalls cfg s ∧ PerimKnown cfg s ∧ HistOK cfg s ∧ CoverInv cfg s

/-- The states reachable by the navigator between initialisation and the
next reset, as far as walls and history are concerned: the initial state,
a sensing pass from any in-grid pose with any sensor answers, a reset, and
any transformation that leaves walls and history untouched (movement,
searching, mode changes, telemetry — an over-approximation of the actual
main loop that subsumes every interleaving it can produce). -/
inductive Reach (cfg : Cfg) : St → Prop
  | init : Reach cfg (Algo.initState cfg)
  | sense (api : Api) (s : St) : Reach cfg s → s.mx < cfg.W → s.my < cfg.H →
      Reach cfg (Algo.readWalls cfg api s)
  | reset_ev (s : St) : Reach cfg s → Reach cfg (Algo.reset cfg s)
  | frame (s s' : St) : Reach cfg s → s'.known = s.known →
      s'.wallp = s.wallp → s'.hist = s.hist → Reach cfg s'

/-- The cells of the planned chain: following the `next` pointers of `s`
from `start`. -/
def chainCell (cfg : Cfg) (s : St) (start : Nat) : Nat → Nat
  | 0 => start
  | i + 1 => Algo.getNeighboringCell cfg (chainCell cfg s start i)
      (Maze.getNextDirection s (chainCell cfg s start i))

/-- The number of hops `followPath` actually executes, measured by its
reset-signal polls (the loop polls exactly once per completed hop). -/
def hopsTaken (cfg : Cfg) (api : Api) (fuel : Nat) (s : St) (start : Nat) : Nat :=
  (Algo.followPathAux cfg api fuel s start).polls - s.polls

/-- The cells visited when walking the direction list `ds` from `c`
(including both endpoints). -/
def chainCellsList (cfg : Cfg) : Nat → List Nat → List Nat
  | c, [] => [c]
  | c, d :: ds => c :: chainCellsList cfg (Algo.getNeighboringCell cfg c d) ds

/-- The final cell of such a walk. -/
def chainEnd (cfg : Cfg) : Nat → List Nat → Nat
  | c, [] => c
  | c, d :: ds => chainEnd cfg (Algo.getNeighboringCell cfg c d) ds

/-- A pointer chain as walked by the `reverseLinkedList` loop: every listed
cell has a next pointer along the listed direction, and the final landing
cell has none (so the loop stops there). -/
def WalkChain (cfg : Cfg) (s : St) : Nat → List Nat → Nat → Prop
  | c, [], e => c = e ∧ Maze.hasNext s c = false ∧ c < cfg.W * cfg.H
  | c, d :: ds, e => d < 4 ∧ c < cfg.W * cfg.H ∧ Maze.hasNext s c = true ∧
      Maze.getNextDirection s c = d ∧ Algo.hasNeighboringCell cfg c d = true ∧
      WalkChain cfg s (Algo.getNeighboringCell cfg c d) ds e

/-- Like `WalkChain` but without the end-of-chain condition. -/
def FwdChain (cfg : Cfg) (s : St) : Nat → List Nat → Nat → Prop
  | c, [], e => c = e
  | c, d :: ds, e => d < 4 ∧ c < cfg.W * cfg.H ∧ Maze.hasNext s c = true ∧
      Maze.getNextDirection s c = d ∧ Algo.hasNeighboringCell cfg c d = true ∧
      FwdChain cfg s (Algo.getNeighboringCell cfg c d) ds e

/-- A chain of next pointers as consumed by `Algo::reverseLinkedList` from
its root `c0`: the root's pointer value is read without consulting its
has-next bit, and the rest is a `WalkChain`. -/
def BackChain (cfg : Cfg) (s : St) (c0 : Nat) (ds : List Nat) (e : Nat) : Prop :=
  match ds with
  | [] => False
  | d :: rest => d < 4 ∧ c0 < cfg.W * cfg.H ∧
      Maze.getNextDirection s c0 = d ∧ Algo.hasNeighboringCell cfg c0 d = true ∧
      WalkChain cfg s (Algo.getNeighboringCell cfg c0 d) rest e

/-- The direction list of the reversed chain. -/
def revDirs (ds : List Nat) : List Nat :=
  ds.reverse.map Algo.getOppositeDirection

/-- A concrete three-cell pointer chain on the 2×2 grid, used to witness
the reversal round trip: (0,0) → north → (0,1) → east → (1,1). -/
def chainSt : St :=
  Maze.setNextDirection (Maze.setNextDirection (Algo.initState cfg2) 0 0) 1 1

/-- The three directions examined by the sensing loop of `readWalls`, in
loop order (left, front, right of the current heading). -/
def sensedDirs (s : St) : List Nat :=
  [(s.md + 3) % 4, (s.md + 4) % 4, (s.md + 5) % 4]

/-- The two wall sides written by `setCellWall cur δ`: the sensed side
itself and, when the neighbour exists, its mirror side. -/
def wallTouch (cfg : Cfg) (cur δ c d : Nat) : Prop :=
  (c = cur ∧ d = δ) ∨
  (Algo.hasNeighboringCell cfg cur δ = true ∧
   c = Algo.getNeighboringCell cfg cur δ ∧
   d = Algo.getOppositeDirection δ)

/-- The boundary oracle with the reset button held down permanently
(sensors as in the failing maze). -/
def apiR : Api where
  wallFront := fun x y h => mazeWall2 x y h
  wallRight := fun x y h => mazeWall2 x y ((h + 1) % 4)
  wallLeft := fun x y h => mazeWall2 x y ((h + 3) % 4)
  wasReset := fun _ => true

/-- The result of the second step's `generatePath` call in the failing run:
the post-search state and the returned start identifier. -/
def failPath : St × Nat :=
  (Algo.generatePath cfg2 failSt2 (Maze.getCell cfg2 failSt2.mx
    failSt2.my)).getD (failSt2, 0)

/-! ## Basic lemmas: map updates, directions, grid geometry -/

@[simp]
theorem upd2_same (f : Nat → Nat → Bool) (c d : Nat) (v : Bool) :
    upd2 f c d v c d = v := by
  simp [upd2]

theorem upd2_other (f : Nat → Nat → Bool) (c d : Nat) (v : Bool) (c' d' : Nat)
    (h : ¬ (c' = c ∧ d' = d)) : upd2 f c d v c' d' = f c' d' := by
  simp [upd2, h]

@[simp]
theorem upd1_same {α : Type} (f : Nat → α) (c : Nat) (v : α) : upd1 f c v c = v := by
  simp [upd1]

theorem upd1_other {α : Type} (f : Nat → α) (c : Nat) (v : α) (c' : Nat)
    (h : c' ≠ c) : upd1 f c v c' = f c' := by
  simp [upd1, h]

theorem opp_lt_four (d : Nat) : Algo.getOppositeDirection d < 4 := by
  rcases d with _ | _ | _ | _ | d
  · decide
  · decide
  · decide
  · decide
  · exact (by decide : (0 : Nat) < 4)

theorem opp_opp (d : Nat) (hd : d < 4) :
    Algo.getOppositeDirection (Algo.getOppositeDirection d) = d := by
  rcases d with _ | _ | _ | _ | d
  · decide
  · decide
  · decide
  · decide
  · omega

theorem getX_getCell (cfg : Cfg) (x y : Nat) (hy : y < cfg.H) :
    Maze.getX cfg (Maze.getCell cfg x y) = x := by
  have h0 : 0 < cfg.H := Nat.lt_of_le_of_lt (Nat.zero_le y) hy
  show (x * cfg.H + y) / cfg.H = x
  rw [Nat.add_comm, Nat.add_mul_div_right _ _ h0, Nat.div_eq_of_lt hy,
    Nat.zero_add]

theorem getY_getCell (cfg : Cfg) (x y : Nat) (hy : y < cfg.H) :
    Maze.getY cfg (Maze.getCell cfg x y) = y := by
  show (x * cfg.H + y) % cfg.H = y
  rw [Nat.mul_comm, Nat.mul_add_mod, Nat.mod_eq_of_lt hy]

theorem getCell_getX_getY (cfg : Cfg) (c : Nat) :
    Maze.getCell cfg (Maze.getX cfg c) (Maze.getY cfg c) = c := by
  show c / cfg.H * cfg.H + c % cfg.H = c
  rw [Nat.mul_comm]
  exact Nat.div_add_mod c cfg.H

theorem getY_lt (cfg : Cfg) (c : Nat) (h0 : 0 < cfg.H) : Maze.getY cfg c < cfg.H :=
  Nat.mod_lt _ h0

theorem getX_lt (cfg : Cfg) (c : Nat) (hc : c < cfg.W * cfg.H) :
    Maze.getX cfg c < cfg.W := by
  have h0 : 0 < cfg.H := by
    rcases Nat.eq_zero_or_pos cfg.H with h | h
    · simp [h] at hc
    · exact h
  exact (Nat.div_lt_iff_lt_mul h0).2 hc

theorem getCell_lt (cfg : Cfg) (x y : Nat) (hx : x < cfg.W) (hy : y < cfg.H) :
    Maze.getCell cfg x y < cfg.W * cfg.H := by
  have : x * cfg.H + y < (x + 1) * cfg.H := by
    simp [Nat.add_mul]; omega
  calc Maze.getCell cfg x y < (x + 1) * cfg.H := this
    _ ≤ cfg.W * cfg.H := Nat.mul_le_mul_right _ hx

theorem getCell_inj (cfg : Cfg) (x y x' y' : Nat) (hy : y < cfg.H) (hy' : y' < cfg.H)
    (h : Maze.getCell cfg x y = Maze.getCell cfg x' y') : x = x' ∧ y = y' := by
  have h1 := getX_getCell cfg x y hy
  have h2 := getX_getCell cfg x' y' hy'
  have h3 := getY_getCell cfg x y hy
  have h4 := getY_getCell cfg x' y' hy'
  rw [h] at h1 h3
  exact ⟨h1.symm.trans h2, h3.symm.trans h4⟩

/-- Full geometry of a grid move: a valid cell's neighbour is valid, the
mirrored direction leads back, and the neighbour is a different cell. -/
theorem neighbor_spec (cfg : Cfg) (c d : Nat) (hc : c < cfg.W * cfg.H) (hd : d < 4)
    (hn : Algo.hasNeighboringCell cfg c d = true) :
    Algo.getNeighboringCell cfg c d < cfg.W * cfg.H ∧
    Algo.hasNeighboringCell cfg (Algo.getNeighboringCell cfg c d)
      (Algo.getOppositeDirection d) = true ∧
    Algo.getNeighboringCell cfg (Algo.getNeighboringCell cfg c d)
      (Algo.getOppositeDirection d) = c ∧
    Algo.getNeighboringCell cfg c d ≠ c := by
  have h0 : 0 < cfg.H := by
    rcases Nat.eq_zero_or_pos cfg.H with h | h
    · simp [h] at hc
    · exact h
  have hyc : Maze.getY cfg c < cfg.H := getY_lt cfg c h0
  have hxc : Maze.getX cfg c < cfg.W := getX_lt cfg c hc
  have hcc := getCell_getX_getY cfg c
  rcases d with _ | _ | _ | _ | d
  · -- NORTH
    simp only [Algo.hasNeighboringCell] at hn
    simp only [Algo.getNeighboringCell, Algo.getOppositeDirection]
    have hy1 : Maze.getY cfg c + 1 < cfg.H := by simpa using hn
    constructor
    · exact getCell_lt cfg _ _ hxc hy1
    refine ⟨?_, ?_, ?_⟩
    · simp [Algo.hasNeighboringCell, getY_getCell cfg _ _ hy1]
    · simp [Algo.getNeighboringCell, getY_getCell cfg _ _ hy1,
        getX_getCell cfg _ _ hy1, hcc]
    · intro h
      have := getCell_inj cfg _ _ _ _ hy1 hyc (by rw [h, hcc])
      omega
  · -- EAST
    simp only [Algo.hasNeighboringCell] at hn
    simp only [Algo.getNeighboringCell, Algo.getOppositeDirection]
    have hx1 : Maze.getX cfg c + 1 < cfg.W := by simpa using hn
    constructor
    · exact getCell_lt cfg _ _ hx1 hyc
    refine ⟨?_, ?_, ?_⟩
    · simp [Algo.hasNeighboringCell, getX_getCell cfg _ _ hyc,
        getY_getCell cfg _ _ hyc]
    · simp [Algo.getNeighboringCell, getX_getCell cfg _ _ hyc,
        getY_getCell cfg _ _ hyc, hcc]
    · intro h
      have := getCell_inj cfg _ _ _ _ hyc hyc (h.trans hcc.symm)
      omega
  · -- SOUTH
    simp only [Algo.hasNeighboringCell] at hn
    simp only [Algo.getNeighboringCell, Algo.getOppositeDirection]
    have hy1 : 0 < Maze.getY cfg c := by simpa using hn
    have hym : Maze.getY cfg c - 1 < cfg.H := by omega
    constructor
    · exact getCell_lt cfg _ _ hxc hym
    refine ⟨?_, ?_, ?_⟩
    · simp [Algo.hasNeighboringCell, getY_getCell cfg _ _ hym]
      omega
    · have : Maze.getY cfg c - 1 + 1 = Maze.getY cfg c := by omega
      simp [Algo.getNeighboringCell, getY_getCell cfg _ _ hym,
        getX_getCell cfg _ _ hym, this, hcc]
    · intro h
      have := getCell_inj cfg _ _ _ _ hym hyc (by rw [h, hcc])
      omega
  · -- WEST
    simp only [Algo.hasNeighboringCell] at hn
    simp only [Algo.getNeighboringCell, Algo.getOppositeDirection]
    have hx1 : 0 < Maze.getX cfg c := by simpa using hn
    have hxm : Maze.getX cfg c - 1 < cfg.W := by omega
    constructor
    · exact getCell_lt cfg _ _ hxm hyc
    refine ⟨?_, ?_, ?_⟩
    · simp [Algo.hasNeighboringCell, getX_getCell cfg _ _ hyc,
        getY_getCell cfg _ _ hyc]
      omega
    · have : Maze.getX cfg c - 1 + 1 = Maze.getX cfg c := by omega
      simp [Algo.getNeighboringCell, getX_getCell cfg _ _ hyc,
        getY_getCell cfg _ _ hyc, this, hcc]
    · intro h
      have := getCell_inj cfg _ _ _ _ hyc hyc (h.trans hcc.symm)
      omega
  · simp [Algo.hasNeighboringCell] at hn

/-- A cell's neighbour is never the cell itself (no validity of `c` is
needed, only a positive grid height). -/
theorem nbr_ne (cfg : Cfg) (c d : Nat) (h0 : 0 < cfg.H)
    (hn : Algo.hasNeighboringCell cfg c d = true) :
    Algo.getNeighboringCell cfg c d ≠ c := by
  have hdm := Nat.div_add_mod c cfg.H
  rcases d with _ | _ | _ | _ | d
  · show Maze.getCell cfg (Maze.getX cfg c) (Maze.getY cfg c + 1) ≠ c
    simp only [Maze.getCell, Maze.getX, Maze.getY]
    rw [Nat.mul_comm (c / cfg.H) cfg.H]
    omega
  · show Maze.getCell cfg (Maze.getX cfg c + 1) (Maze.getY cfg c) ≠ c
    simp only [Maze.getCell, Maze.getX, Maze.getY, Nat.add_mul, Nat.one_mul]
    rw [Nat.mul_comm (c / cfg.H) cfg.H]
    omega
  · simp only [Algo.hasNeighboringCell] at hn
    have hy : 0 < Maze.getY cfg c := by simpa using hn
    show Maze.getCell cfg (Maze.getX cfg c) (Maze.getY cfg c - 1) ≠ c
    simp only [Maze.getCell, Maze.getX, Maze.getY] at *
    rw [Nat.mul_comm (c / cfg.H) cfg.H]
    omega
  · simp only [Algo.hasNeighboringCell] at hn
    have hx : 0 < Maze.getX cfg c := by simpa using hn
    have hle : cfg.H ≤ cfg.H * (c / cfg.H) := by
      calc cfg.H = cfg.H * 1 := (Nat.mul_one _).symm
        _ ≤ cfg.H * (c / cfg.H) := Nat.mul_le_mul_left _ hx
    show Maze.getCell cfg (Maze.getX cfg c - 1) (Maze.getY cfg c) ≠ c
    simp only [Maze.getCell, Maze.getX, Maze.getY, Nat.sub_mul, Nat.one_mul] at *
    rw [Nat.mul_comm (c / cfg.H) cfg.H]
    omega
  · simp [Algo.hasNeighboringCell] at hn

/-! ## Claim C6: the cost model -/

/-- C6, counterexample: in the fast regime the cost of the k-th straight
edge is `256 / k` in integer arithmetic, which is *not* strictly decreasing
in k: the 20th and the 21st consecutive straight edge both cost 12. -/
theorem claim_C6_counterexample :
    Algo.getStraightAwayCost cfgFast 20 = 12 ∧
    Algo.getStraightAwayCost cfgFast 21 = 12 ∧
    ¬ Algo.getStraightAwayCost cfgFast 21 < Algo.getStraightAwayCost cfgFast 20 := by
  decide

/-- C6 (amended): for every run length `k ≥ 1`, in the simple regime a turn
costs exactly 2 and a straight continuation exactly 3 independent of `k`;
in the fast-straightaways regime a turn costs exactly 256 and the k-th
consecutive straight edge costs exactly `256 / k` (integer division), which
is non-increasing in `k` and strictly decreasing for `k ≤ 16` (the run
lengths realisable within a single straightaway of a maze of width at
most 16). -/
theorem claim_C6_cost_model (cfg : Cfg) (k : Nat) (hk : 1 ≤ k) :
    (cfg.fast = false →
      Algo.getTurnCost cfg = 2 ∧ Algo.getStraightAwayCost cfg k = 3) ∧
    (cfg.fast = true →
      Algo.getTurnCost cfg = 256 ∧
      Algo.getStraightAwayCost cfg k = 256 / k ∧
      Algo.getStraightAwayCost cfg (k + 1) ≤ Algo.getStraightAwayCost cfg k ∧
      (k < 16 →
        Algo.getStraightAwayCost cfg (k + 1) < Algo.getStraightAwayCost cfg k)) := by
  constructor
  · intro h
    simp [Algo.getTurnCost, Algo.getStraightAwayCost, h]
  · intro h
    refine ⟨by simp [Algo.getTurnCost, h], by simp [Algo.getStraightAwayCost, h],
      ?_, ?_⟩
    · simpa [Algo.getStraightAwayCost, h] using
        Nat.div_le_div_left (Nat.le_succ k) hk
    · intro hk16
      simp only [Algo.getStraightAwayCost, h, if_true]
      interval_cases k <;> decide

/-- C6, witness: the amended statement at `k = 2` in a fast-regime
configuration. -/
theorem claim_C6_witness :
    (cfgFast.fast = false →
      Algo.getTurnCost cfgFast = 2 ∧ Algo.getStraightAwayCost cfgFast 2 = 3) ∧
    (cfgFast.fast = true →
      Algo.getTurnCost cfgFast = 256 ∧
      Algo.getStraightAwayCost cfgFast 2 = 256 / 2 ∧
      Algo.getStraightAwayCost cfgFast 3 ≤ Algo.getStraightAwayCost cfgFast 2 ∧
      (2 < 16 →
        Algo.getStraightAwayCost cfgFast 3 < Algo.getStraightAwayCost cfgFast 2)) :=
  claim_C6_cost_model cfgFast 2 (by decide)

/-! ## Claim C7: the goal-mode transition at the end of a step -/

/-- C7, counterexample: when the center region contains (0,0) and the mouse
is at (0,0) in CENTER mode, the goal check does *not* leave the mode at
ORIGIN — the second conditional immediately flips it back to CENTER, so
"if the mode was CENTER and the cell lies in the center region, the mode
becomes ORIGIN" fails. -/
theorem claim_C7_counterexample :
    Algo.inCenter cfg11 0 0 = true ∧
    Algo.stepGoalUpdate cfg11 Mode.CENTER 0 0 ≠ Mode.ORIGIN := by
  decide

/-- C7 (amended): the goal check at the end of `step()` behaves as follows:
from CENTER with the mouse inside the center region the mode becomes ORIGIN,
unless the mouse is at (0,0) (possible only when the center region contains
the origin), in which case the second sequential check immediately returns
it to CENTER; from ORIGIN at (0,0) the mode becomes CENTER; in every other
situation the mode is unchanged — in particular the goal check never
produces GIVEUP or any other transition. -/
theorem claim_C7_goal_mode_update (cfg : Cfg) (mode : Mode) (x y : Nat) :
    Algo.stepGoalUpdate cfg mode x y =
      if mode = Mode.CENTER ∧ Algo.inCenter cfg x y = true then
        (if x = 0 ∧ y = 0 then Mode.CENTER else Mode.ORIGIN)
      else if mode = Mode.ORIGIN ∧ x = 0 ∧ y = 0 then Mode.CENTER
      else mode := by
  rcases mode with _ | _ | _ <;>
    simp only [Algo.stepGoalUpdate, Algo.inOrigin] <;>
    by_cases hc : Algo.inCenter cfg x y = true <;>
    by_cases hx : x = 0 <;>
    by_cases hy : y = 0 <;>
    simp_all

/-! ## Claim C5: the state after the perimeter initialisation of `solve` -/

theorem setCellWall_noNbr (cfg : Cfg) (s : St) (c d : Nat) (w : Bool)
    (h : Algo.hasNeighboringCell cfg c d = false) :
    Algo.setCellWall cfg s c d w = Maze.setWall s c d w := by
  simp [Algo.setCellWall, Algo.setCellWallSingle, h]

theorem hasNbr_west_edge (cfg : Cfg) (y : Nat) (hy : y < cfg.H) :
    Algo.hasNeighboringCell cfg (Maze.getCell cfg 0 y) Direction.WEST = false := by
  simp [Algo.hasNeighboringCell, getX_getCell cfg 0 y hy]

theorem hasNbr_south_edge (cfg : Cfg) (x : Nat) (h0 : 0 < cfg.H) :
    Algo.hasNeighboringCell cfg (Maze.getCell cfg x 0) Direction.SOUTH = false := by
  simp [Algo.hasNeighboringCell, getY_getCell cfg x 0 h0]

theorem hasNbr_east_edge (cfg : Cfg) (y : Nat) (hW : 0 < cfg.W) (hy : y < cfg.H) :
    Algo.hasNeighboringCell cfg (Maze.getCell cfg (cfg.W - 1) y) Direction.EAST
      = false := by
  simp [Algo.hasNeighboringCell, getX_getCell cfg (cfg.W - 1) y hy]
  omega

theorem hasNbr_north_edge (cfg : Cfg) (x : Nat) (h0 : 0 < cfg.H) :
    Algo.hasNeighboringCell cfg (Maze.getCell cfg x (cfg.H - 1)) Direction.NORTH
      = false := by
  simp [Algo.hasNeighboringCell,
    getY_getCell cfg x (cfg.H - 1) (by omega : cfg.H - 1 < cfg.H)]
  omega

/-- Pointwise effect of one conditional perimeter write of the
initialisation loop (the wall written lies on the grid edge, so the
symmetric propagation of `setCellWall` is vacuous). -/
theorem condSet_char (cfg : Cfg) (cond : Prop) [Decidable cond] (s : St)
    (cell dir c d : Nat)
    (hedge : cond → Algo.hasNeighboringCell cfg cell dir = false) :
    (((if cond then Algo.setCellWall cfg s cell dir true else s).known c d
        = true) ↔
      (s.known c d = true ∨ (cond ∧ c = cell ∧ d = dir))) ∧
    (((if cond then Algo.setCellWall cfg s cell dir true else s).wallp c d
        = true) ↔
      (s.wallp c d = true ∨ (cond ∧ c = cell ∧ d = dir))) := by
  by_cases hc : cond
  · rw [if_pos hc, setCellWall_noNbr cfg s cell dir true (hedge hc)]
    by_cases hp : c = cell ∧ d = dir <;>
      simp_all [Maze.setWall, upd2] <;> tauto
  · simp [hc]

/-- Pointwise effect of one body of the perimeter-initialisation loop. -/
theorem initCellBody_char (cfg : Cfg) (s : St) (x y : Nat) (hx : x < cfg.W)
    (hy : y < cfg.H) (c d : Nat) :
    ((Algo.initCellBody cfg s x y).known c d = true ↔
      (s.known c d = true ∨ (c = Maze.getCell cfg x y ∧ perimHit cfg x y d))) ∧
    ((Algo.initCellBody cfg s x y).wallp c d = true ↔
      (s.wallp c d = true ∨ (c = Maze.getCell cfg x y ∧ perimHit cfg x y d))) := by
  have h0 : 0 < cfg.H := Nat.lt_of_le_of_lt (Nat.zero_le y) hy
  have hW0 : 0 < cfg.W := Nat.lt_of_le_of_lt (Nat.zero_le x) hx
  have eW := fun s' => condSet_char cfg (x = 0) s' (Maze.getCell cfg x y)
    Direction.WEST c d (fun h => by rw [h]; exact hasNbr_west_edge cfg y hy)
  have eS := fun s' => condSet_char cfg (y = 0) s' (Maze.getCell cfg x y)
    Direction.SOUTH c d (fun h => by rw [h]; exact hasNbr_south_edge cfg x h0)
  have eE := fun s' => condSet_char cfg (x = cfg.W - 1) s' (Maze.getCell cfg x y)
    Direction.EAST c d (fun h => by rw [h]; exact hasNbr_east_edge cfg y hW0 hy)
  have eN := fun s' => condSet_char cfg (y = cfg.H - 1) s' (Maze.getCell cfg x y)
    Direction.NORTH c d (fun h => by rw [h]; exact hasNbr_north_edge cfg x h0)
  unfold Algo.initCellBody
  constructor
  · rw [(eN _).1, (eE _).1, (eS _).1, (eW _).1]
    unfold perimHit
    tauto
  · rw [(eN _).2, (eE _).2, (eS _).2, (eW _).2]
    unfold perimHit
    tauto

/-- Characterisation of the inner (y) initialisation loop over any list of
valid row indices. -/
theorem initRow_char (cfg : Cfg) (x : Nat) (hx : x < cfg.W) (c d : Nat) :
    ∀ (ys : List Nat) (s : St), (∀ y ∈ ys, y < cfg.H) →
    (((ys.foldl (fun s y => Algo.initCellBody cfg s x y) s).known c d = true ↔
      (s.known c d = true ∨
        ∃ y ∈ ys, c = Maze.getCell cfg x y ∧ perimHit cfg x y d)) ∧
     ((ys.foldl (fun s y => Algo.initCellBody cfg s x y) s).wallp c d = true ↔
      (s.wallp c d = true ∨
        ∃ y ∈ ys, c = Maze.getCell cfg x y ∧ perimHit cfg x y d))) := by
  intro ys
  induction ys with
  | nil => intro s _; simp
  | cons y ys ih =>
    intro s hv
    have hy : y < cfg.H := hv y (by simp)
    have hv' : ∀ y' ∈ ys, y' < cfg.H := fun y' h => hv y' (by simp [h])
    have hb := initCellBody_char cfg s x y hx hy c d
    have hi := ih (Algo.initCellBody cfg s x y) hv'
    constructor
    · rw [List.foldl_cons, hi.1, hb.1]
      simp only [List.mem_cons]
      constructor
      · rintro ((h | h) | ⟨y', hy', h⟩)
        · exact Or.inl h
        · exact Or.inr ⟨y, Or.inl rfl, h⟩
        · exact Or.inr ⟨y', Or.inr hy', h⟩
      · rintro (h | ⟨y', hy' | hy', h⟩)
        · exact Or.inl (Or.inl h)
        · exact Or.inl (Or.inr (hy' ▸ h))
        · exact Or.inr ⟨y', hy', h⟩
    · rw [List.foldl_cons, hi.2, hb.2]
      simp only [List.mem_cons]
      constructor
      · rintro ((h | h) | ⟨y', hy', h⟩)
        · exact Or.inl h
        · exact Or.inr ⟨y, Or.inl rfl, h⟩
        · exact Or.inr ⟨y', Or.inr hy', h⟩
      · rintro (h | ⟨y', hy' | hy', h⟩)
        · exact Or.inl (Or.inl h)
        · exact Or.inl (Or.inr (hy' ▸ h))
        · exact Or.inr ⟨y', hy', h⟩

/-- Characterisation of the full perimeter-initialisation double loop. -/
theorem initPerimeter_char (cfg : Cfg) (c d : Nat) :
    ((Algo.initPerimeter cfg freshSt).known c d = true ↔
      ∃ x, x < cfg.W ∧ ∃ y, y < cfg.H ∧
        c = Maze.getCell cfg x y ∧ perimHit cfg x y d) ∧
    ((Algo.initPerimeter cfg freshSt).wallp c d = true ↔
      ∃ x, x < cfg.W ∧ ∃ y, y < cfg.H ∧
        c = Maze.getCell cfg x y ∧ perimHit cfg x y d) := by
  have main : ∀ (xs : List Nat) (s : St), (∀ x ∈ xs, x < cfg.W) →
      (((xs.foldl (fun s x =>
          (List.range cfg.H).foldl (fun s y => Algo.initCellBody cfg s x y) s)
          s).known c d = true ↔
        (s.known c d = true ∨ ∃ x ∈ xs, ∃ y, y < cfg.H ∧
          c = Maze.getCell cfg x y ∧ perimHit cfg x y d)) ∧
       ((xs.foldl (fun s x =>
          (List.range cfg.H).foldl (fun s y => Algo.initCellBody cfg s x y) s)
          s).wallp c d = true ↔
        (s.wallp c d = true ∨ ∃ x ∈ xs, ∃ y, y < cfg.H ∧
          c = Maze.getCell cfg x y ∧ perimHit cfg x y d))) := by
    intro xs
    induction xs with
    | nil => intro s _; simp
    | cons x xs ih =>
      intro s hv
      have hx : x < cfg.W := hv x (by simp)
      have hv' : ∀ x' ∈ xs, x' < cfg.W := fun x' h => hv x' (by simp [h])
      have hr := initRow_char cfg x hx c d (List.range cfg.H) s
        (fun y h => List.mem_range.mp h)
      have hi := ih ((List.range cfg.H).foldl
        (fun s y => Algo.initCellBody cfg s x y) s) hv'
      constructor
      · rw [List.foldl_cons, hi.1, hr.1]
        simp only [List.mem_cons, List.mem_range]
        constructor
        · rintro ((h | ⟨y, hy, h⟩) | ⟨x', hx', h⟩)
          · exact Or.inl h
          · exact Or.inr ⟨x, Or.inl rfl, y, hy, h⟩
          · exact Or.inr ⟨x', Or.inr hx', h⟩
        · rintro (h | ⟨x', hx' | hx', h⟩)
          · exact Or.inl (Or.inl h)
          · exact Or.inl (Or.inr (hx' ▸ h))
          · exact Or.inr ⟨x', hx', h⟩
      · rw [List.foldl_cons, hi.2, hr.2]
        simp only [List.mem_cons, List.mem_range]
        constructor
        · rintro ((h | ⟨y, hy, h⟩) | ⟨x', hx', h⟩)
          · exact Or.inl h
          · exact Or.inr ⟨x, Or.inl rfl, y, hy, h⟩
          · exact Or.inr ⟨x', Or.inr hx', h⟩
        · rintro (h | ⟨x', hx' | hx', h⟩)
          · exact Or.inl (Or.inl h)
          · exact Or.inl (Or.inr (hx' ▸ h))
          · exact Or.inr ⟨x', hx', h⟩
  have := main (List.range cfg.W) freshSt (fun x h => List.mem_range.mp h)
  unfold Algo.initPerimeter
  constructor
  · rw [this.1]
    simp [freshSt, List.mem_range]
  · rw [this.2]
    simp [freshSt, List.mem_range]

/-- Bridge between the loop's perimeter conditions and the absence of a
neighbour. -/
theorem perimHit_iff (cfg : Cfg) (x y d : Nat) (hx : x < cfg.W) (hy : y < cfg.H)
    (hd : d < 4) :
    perimHit cfg x y d ↔
      Algo.hasNeighboringCell cfg (Maze.getCell cfg x y) d = false := by
  have hgx := getX_getCell cfg x y hy
  have hgy := getY_getCell cfg x y hy
  rcases d with _ | _ | _ | _ | d
  · simp [perimHit, Algo.hasNeighboringCell, hgy]; try omega
  · simp [perimHit, Algo.hasNeighboringCell, hgx]; try omega
  · simp [perimHit, Algo.hasNeighboringCell, hgy]; try omega
  · simp [perimHit, Algo.hasNeighboringCell, hgx]; try omega
  · omega

/-- The wall maps of `initState` agree with those of `initPerimeter`. -/
theorem initState_walls (cfg : Cfg) :
    (Algo.initState cfg).known = (Algo.initPerimeter cfg freshSt).known ∧
    (Algo.initState cfg).wallp = (Algo.initPerimeter cfg freshSt).wallp := by
  constructor <;> rfl

/-- C5: after the initialisation phase of `solve()` (perimeter loop plus
mouse setup) and before any step, for every cell of the grid a direction's
wall is known exactly when it is the corresponding perimeter wall (no
neighbour on that side), and every such perimeter wall is present. -/
theorem claim_C5_init_perimeter (cfg : Cfg) (hW : 1 ≤ cfg.W) (hW16 : cfg.W ≤ 16)
    (hH : 1 ≤ cfg.H) (hH16 : cfg.H ≤ 16) (x y d : Nat) (hx : x < cfg.W)
    (hy : y < cfg.H) (hd : d < 4) :
    ((Algo.initState cfg).known (Maze.getCell cfg x y) d = true ↔
      Algo.hasNeighboringCell cfg (Maze.getCell cfg x y) d = false) ∧
    (Algo.hasNeighboringCell cfg (Maze.getCell cfg x y) d = false →
      (Algo.initState cfg).wallp (Maze.getCell cfg x y) d = true) := by
  have hchar := initPerimeter_char cfg (Maze.getCell cfg x y) d
  have hws := initState_walls cfg
  rw [hws.1, hws.2]
  constructor
  · rw [hchar.1]
    constructor
    · rintro ⟨x', hx', y', hy', hc, hhit⟩
      obtain ⟨hxx, hyy⟩ := getCell_inj cfg x y x' y' hy hy' hc
      subst hxx; subst hyy
      exact (perimHit_iff cfg x y d hx hy hd).mp hhit
    · intro h
      exact ⟨x, hx, y, hy, rfl, (perimHit_iff cfg x y d hx hy hd).mpr h⟩
  · intro h
    rw [hchar.2]
    exact ⟨x, hx, y, hy, rfl, (perimHit_iff cfg x y d hx hy hd).mpr h⟩

/-- C5, witness: on a 2×2 grid, the WEST wall of cell (0,1) is known and
present after initialisation, and its EAST wall (an interior wall) is not
known. -/
theorem claim_C5_init_perimeter_witness :
    (((Algo.initState cfg2).known (Maze.getCell cfg2 0 1) Direction.WEST = true ↔
      Algo.hasNeighboringCell cfg2 (Maze.getCell cfg2 0 1) Direction.WEST
        = false) ∧
    (Algo.hasNeighboringCell cfg2 (Maze.getCell cfg2 0 1) Direction.WEST
        = false →
      (Algo.initState cfg2).wallp (Maze.getCell cfg2 0 1) Direction.WEST
        = true)) ∧
    ((Algo.initState cfg2).known (Maze.getCell cfg2 0 1) Direction.EAST = true ↔
      Algo.hasNeighboringCell cfg2 (Maze.getCell cfg2 0 1) Direction.EAST
        = false) :=
  ⟨claim_C5_init_perimeter cfg2 (by decide) (by decide) (by decide) (by decide)
      0 1 Direction.WEST (by decide) (by decide) (by decide),
    (claim_C5_init_perimeter cfg2 (by decide) (by decide) (by decide) (by decide)
      0 1 Direction.EAST (by decide) (by decide) (by decide)).1⟩

/-! ## Reachable states and the wall invariants (claims C2, C4) -/

theorem wallsOnlyExt_refl (s : St) : wallsOnlyExt s s := by
  simp [wallsOnlyExt]

theorem wallsOnlyExt_trans {s1 s2 s3 : St} (h1 : wallsOnlyExt s1 s2)
    (h2 : wallsOnlyExt s2 s3) : wallsOnlyExt s1 s3 := by
  unfold wallsOnlyExt at *
  obtain ⟨a1, a2, a3, a4, a5, a6, a7, a8, a9, a10, a11, a12⟩ := h1
  obtain ⟨b1, b2, b3, b4, b5, b6, b7, b8, b9, b10, b11, b12⟩ := h2
  exact ⟨b1.trans a1, b2.trans a2, b3.trans a3, b4.trans a4, b5.trans a5,
    b6.trans a6, b7.trans a7, b8.trans a8, b9.trans a9, b10.trans a10,
    b11.trans a11, b12.trans a12⟩

theorem setWall_wallsOnlyExt (s : St) (c d : Nat) (w : Bool) :
    wallsOnlyExt s (Maze.setWall s c d w) := by
  simp [wallsOnlyExt, Maze.setWall]

theorem clearWall_wallsOnlyExt (s : St) (c d : Nat) :
    wallsOnlyExt s (Maze.clearWall s c d) := by
  simp [wallsOnlyExt, Maze.clearWall]

theorem setCellWall_wallsOnlyExt (cfg : Cfg) (s : St) (c d : Nat) (w : Bool) :
    wallsOnlyExt s (Algo.setCellWall cfg s c d w) := by
  unfold Algo.setCellWall Algo.setCellWallSingle
  split
  · exact wallsOnlyExt_trans (setWall_wallsOnlyExt s c d w)
      (setWall_wallsOnlyExt _ _ _ w)
  · exact setWall_wallsOnlyExt s c d w

theorem unsetCellWall_wallsOnlyExt (cfg : Cfg) (s : St) (c d : Nat) :
    wallsOnlyExt s (Algo.unsetCellWall cfg s c d) := by
  unfold Algo.unsetCellWall Algo.unsetCellWallSingle
  split
  · exact wallsOnlyExt_trans (clearWall_wallsOnlyExt s c d)
      (clearWall_wallsOnlyExt _ _ _)
  · exact clearWall_wallsOnlyExt s c d

theorem foldl_wallsOnlyExt {α : Type} (f : St → α → St)
    (hf : ∀ s a, wallsOnlyExt s (f s a)) :
    ∀ (l : List α) (s : St), wallsOnlyExt s (l.foldl f s) := by
  intro l
  induction l with
  | nil => intro s; exact wallsOnlyExt_refl s
  | cons a l ih =>
    intro s
    exact wallsOnlyExt_trans (hf s a) (ih (f s a))

theorem undoEntry_wallsOnlyExt (cfg : Cfg) (s : St) (e : Nat × Nat) :
    wallsOnlyExt s (Algo.undoEntry cfg s e) := by
  unfold Algo.undoEntry
  apply foldl_wallsOnlyExt
  intro s' d
  split
  · exact unsetCellWall_wallsOnlyExt cfg s' e.1 d
  · exact wallsOnlyExt_refl s'

@[simp]
theorem setWall_known (s : St) (c d : Nat) (w : Bool) :
    (Maze.setWall s c d w).known = upd2 s.known c d true := rfl

@[simp]
theorem setWall_wallp (s : St) (c d : Nat) (w : Bool) :
    (Maze.setWall s c d w).wallp = upd2 s.wallp c d w := rfl

@[simp]
theorem clearWall_known (s : St) (c d : Nat) :
    (Maze.clearWall s c d).known = upd2 s.known c d false := rfl

@[simp]
theorem clearWall_wallp (s : St) (c d : Nat) :
    (Maze.clearWall s c d).wallp = s.wallp := rfl

/-- Pointwise behaviour of `setCellWall` with symmetric propagation: the two
written sides get `known = true` and presence `w`; everything else is
unchanged. -/
theorem setCellWall_point (cfg : Cfg) (s : St) (c d : Nat) (w : Bool)
    (c' d' : Nat) :
    (((c' = c ∧ d' = d) ∨
      (Algo.hasNeighboringCell cfg c d = true ∧
       c' = Algo.getNeighboringCell cfg c d ∧
       d' = Algo.getOppositeDirection d)) →
      (Algo.setCellWall cfg s c d w).known c' d' = true ∧
      (Algo.setCellWall cfg s c d w).wallp c' d' = w) ∧
    (¬ ((c' = c ∧ d' = d) ∨
      (Algo.hasNeighboringCell cfg c d = true ∧
       c' = Algo.getNeighboringCell cfg c d ∧
       d' = Algo.getOppositeDirection d)) →
      (Algo.setCellWall cfg s c d w).known c' d' = s.known c' d' ∧
      (Algo.setCellWall cfg s c d w).wallp c' d' = s.wallp c' d') := by
  unfold Algo.setCellWall Algo.setCellWallSingle
  by_cases hn : Algo.hasNeighboringCell cfg c d = true
  · rw [if_pos hn]
    constructor
    · rintro (⟨h1, h2⟩ | ⟨-, h1, h2⟩) <;>
      · rw [h1, h2]
        constructor <;>
        · simp only [setWall_known, setWall_wallp, upd2]
          split <;> first | rfl | simp_all [upd2]
    · intro h
      push_neg at h
      obtain ⟨h1, h2⟩ := h
      have h2' := h2 hn
      constructor <;>
      · simp only [setWall_known, setWall_wallp, upd2]
        rw [if_neg, if_neg]
        · intro hcd; exact h1 hcd.1 hcd.2
        · intro hcd; exact h2' hcd.1 hcd.2
  · rw [if_neg hn]
    constructor
    · rintro (⟨h1, h2⟩ | ⟨hfalse, -, -⟩)
      · rw [h1, h2]
        constructor <;> simp [upd2]
      · exact absurd hfalse hn
    · intro h
      push_neg at h
      obtain ⟨h1, -⟩ := h
      constructor <;>
      · simp only [setWall_known, setWall_wallp, upd2]
        rw [if_neg]
        intro hcd; exact h1 hcd.1 hcd.2

/-- Pointwise behaviour of `unsetCellWall`: the written sides become
unknown (presence bits are untouched), everything else is unchanged. -/
theorem unsetCellWall_point (cfg : Cfg) (s : St) (c d : Nat) (c' d' : Nat) :
    (((c' = c ∧ d' = d) ∨
      (Algo.hasNeighboringCell cfg c d = true ∧
       c' = Algo.getNeighboringCell cfg c d ∧
       d' = Algo.getOppositeDirection d)) →
      (Algo.unsetCellWall cfg s c d).known c' d' = false) ∧
    (¬ ((c' = c ∧ d' = d) ∨
      (Algo.hasNeighboringCell cfg c d = true ∧
       c' = Algo.getNeighboringCell cfg c d ∧
       d' = Algo.getOppositeDirection d)) →
      (Algo.unsetCellWall cfg s c d).known c' d' = s.known c' d') ∧
    (Algo.unsetCellWall cfg s c d).wallp = s.wallp := by
  unfold Algo.unsetCellWall Algo.unsetCellWallSingle
  by_cases hn : Algo.hasNeighboringCell cfg c d = true
  · rw [if_pos hn]
    refine ⟨?_, ?_, rfl⟩
    · rintro (⟨h1, h2⟩ | ⟨-, h1, h2⟩) <;>
      · rw [h1, h2]
        simp only [clearWall_known, upd2]
        split <;> first | rfl | simp_all [upd2]
    · intro h
      push_neg at h
      obtain ⟨h1, h2⟩ := h
      have h2' := h2 hn
      simp only [clearWall_known, upd2]
      rw [if_neg, if_neg]
      · intro hcd; exact h1 hcd.1 hcd.2
      · intro hcd; exact h2' hcd.1 hcd.2
  · rw [if_neg hn]
    refine ⟨?_, ?_, rfl⟩
    · rintro (⟨h1, h2⟩ | ⟨hfalse, -, -⟩)
      · rw [h1, h2]
        simp [upd2]
      · exact absurd hfalse hn
    · intro h
      push_neg at h
      obtain ⟨h1, -⟩ := h
      simp only [clearWall_known, upd2]
      rw [if_neg]
      intro hcd; exact h1 hcd.1 hcd.2

theorem initCellBody_wallsOnlyExt (cfg : Cfg) (s : St) (x y : Nat) :
    wallsOnlyExt s (Algo.initCellBody cfg s x y) := by
  have hcond : ∀ (cond : Prop) (_ : Decidable cond) (s' : St) (c d : Nat)
      (w : Bool),
      wallsOnlyExt s' (if cond then Algo.setCellWall cfg s' c d w else s') := by
    intro cond inst s' c d w
    split
    · exact setCellWall_wallsOnlyExt cfg s' c d w
    · exact wallsOnlyExt_refl s'
  unfold Algo.initCellBody
  exact wallsOnlyExt_trans
    (wallsOnlyExt_trans
      (wallsOnlyExt_trans (hcond _ _ _ _ _ _) (hcond _ _ _ _ _ _))
      (hcond _ _ _ _ _ _))
    (hcond _ _ _ _ _ _)

theorem initPerimeter_wallsOnlyExt (cfg : Cfg) (s : St) :
    wallsOnlyExt s (Algo.initPerimeter cfg s) := by
  unfold Algo.initPerimeter
  exact foldl_wallsOnlyExt _
    (fun s x => foldl_wallsOnlyExt _
      (fun s y => initCellBody_wallsOnlyExt cfg s x y) (List.range cfg.H) s)
    (List.range cfg.W) s

/-- The two sides written by a both-sides wall update form a set that is
closed under mirroring a wall side. -/
theorem hit_mirror (cfg : Cfg) (c d a e : Nat) (hc : c < cfg.W * cfg.H)
    (hd : d < 4) (ha : a < cfg.W * cfg.H) (he : e < 4)
    (hna : Algo.hasNeighboringCell cfg a e = true) :
    ((a = c ∧ e = d) ∨
      (Algo.hasNeighboringCell cfg c d = true ∧
       a = Algo.getNeighboringCell cfg c d ∧
       e = Algo.getOppositeDirection d)) ↔
    ((Algo.getNeighboringCell cfg a e = c ∧
      Algo.getOppositeDirection e = d) ∨
      (Algo.hasNeighboringCell cfg c d = true ∧
       Algo.getNeighboringCell cfg a e = Algo.getNeighboringCell cfg c d ∧
       Algo.getOppositeDirection e = Algo.getOppositeDirection d)) := by
  obtain ⟨hval, hmnbr, hmirror, -⟩ := neighbor_spec cfg a e ha he hna
  constructor
  · rintro (⟨h1, h2⟩ | ⟨hncd, h1, h2⟩)
    · refine Or.inr ⟨?_, ?_, ?_⟩
      · rw [← h1, ← h2]; exact hna
      · rw [h1, h2]
      · rw [h2]
    · refine Or.inl ⟨?_, ?_⟩
      · rw [h1, h2]
        exact (neighbor_spec cfg c d hc hd hncd).2.2.1
      · rw [h2, opp_opp d hd]
  · rintro (⟨h1, h2⟩ | ⟨hncd, h1, h2⟩)
    · have hcd : Algo.hasNeighboringCell cfg c d = true := by
        rw [← h1, ← h2]; exact hmnbr
      refine Or.inr ⟨hcd, ?_, ?_⟩
      · rw [← h1, ← h2, hmirror]
      · rw [← h2, opp_opp e he]
    · have he2 : e = d := by
        have := congrArg Algo.getOppositeDirection h2
        rwa [opp_opp e he, opp_opp d hd] at this
      refine Or.inl ⟨?_, he2⟩
      obtain ⟨hcval, -, hcmirror, -⟩ := neighbor_spec cfg c d hc hd hncd
      have : Algo.getNeighboringCell cfg (Algo.getNeighboringCell cfg a e)
          (Algo.getOppositeDirection e) = c := by
        rw [h1, h2, hcmirror]
      rw [← this, hmirror]

/-- A both-sides `setCellWall` at a valid cell preserves wall symmetry. -/
theorem setCellWall_symm (cfg : Cfg) (s : St) (c d : Nat) (w : Bool)
    (hc : c < cfg.W * cfg.H) (hd : d < 4) (hs : SymmWalls cfg s) :
    SymmWalls cfg (Algo.setCellWall cfg s c d w) := by
  intro a e ha he hna
  have hpt := setCellWall_point cfg s c d w a e
  have hptm := setCellWall_point cfg s c d w (Algo.getNeighboringCell cfg a e)
    (Algo.getOppositeDirection e)
  have hmi := hit_mirror cfg c d a e hc hd ha he hna
  by_cases hhit : (a = c ∧ e = d) ∨
      (Algo.hasNeighboringCell cfg c d = true ∧
       a = Algo.getNeighboringCell cfg c d ∧
       e = Algo.getOppositeDirection d)
  · obtain ⟨k1, k2⟩ := hpt.1 hhit
    obtain ⟨k3, k4⟩ := hptm.1 (hmi.mp hhit)
    rw [k1, k2, k3, k4]
    exact ⟨rfl, rfl⟩
  · obtain ⟨k1, k2⟩ := hpt.2 hhit
    obtain ⟨k3, k4⟩ := hptm.2 (fun h => hhit (hmi.mpr h))
    rw [k1, k2, k3, k4]
    exact hs a e ha he hna

/-- A both-sides `setCellWall` across an interior wall does not touch the
perimeter walls. -/
theorem setCellWall_perim (cfg : Cfg) (s : St) (c d : Nat) (w : Bool)
    (hc : c < cfg.W * cfg.H) (hd : d < 4)
    (hn : Algo.hasNeighboringCell cfg c d = true) (hs : PerimKnown cfg s) :
    PerimKnown cfg (Algo.setCellWall cfg s c d w) := by
  intro a e ha he hna
  have hpt := setCellWall_point cfg s c d w a e
  have hfr : ¬ ((a = c ∧ e = d) ∨
      (Algo.hasNeighboringCell cfg c d = true ∧
       a = Algo.getNeighboringCell cfg c d ∧
       e = Algo.getOppositeDirection d)) := by
    rintro (⟨h1, h2⟩ | ⟨-, h1, h2⟩)
    · rw [h1, h2] at hna
      rw [hna] at hn
      exact Bool.noConfusion hn
    · have := (neighbor_spec cfg c d hc hd hn).2.1
      rw [← h1, ← h2] at this
      rw [this] at hna
      exact Bool.noConfusion hna
  obtain ⟨k1, k2⟩ := hpt.2 hfr
  rw [k1, k2]
  exact hs a e ha he hna

/-- The initial state satisfies the combined wall invariant. -/
theorem init_wallInv (cfg : Cfg) : WallInv cfg (Algo.initState cfg) := by
  have hws := initState_walls cfg
  have hchar := fun c d => initPerimeter_char cfg c d
  have hknown_false : ∀ c d, c < cfg.W * cfg.H → d < 4 →
      Algo.hasNeighboringCell cfg c d = true →
      (Algo.initState cfg).known c d = false ∧
      (Algo.initState cfg).wallp c d = false := by
    intro c d hc hd hn
    have h0 : 0 < cfg.H := by
      rcases Nat.eq_zero_or_pos cfg.H with h | h
      · simp [h] at hc
      · exact h
    constructor
    · rw [hws.1]
      by_contra hne
      have : (Algo.initPerimeter cfg freshSt).known c d = true := by
        revert hne
        cases (Algo.initPerimeter cfg freshSt).known c d <;> simp
      obtain ⟨x', hx', y', hy', hcell, hhit⟩ := (hchar c d).1.mp this
      have := (perimHit_iff cfg x' y' d hx' hy' hd).mp hhit
      rw [← hcell] at this
      rw [this] at hn
      exact Bool.noConfusion hn
    · rw [hws.2]
      by_contra hne
      have : (Algo.initPerimeter cfg freshSt).wallp c d = true := by
        revert hne
        cases (Algo.initPerimeter cfg freshSt).wallp c d <;> simp
      obtain ⟨x', hx', y', hy', hcell, hhit⟩ := (hchar c d).2.mp this
      have := (perimHit_iff cfg x' y' d hx' hy' hd).mp hhit
      rw [← hcell] at this
      rw [this] at hn
      exact Bool.noConfusion hn
  refine ⟨?_, ?_, ?_, ?_⟩
  · intro c d hc hd hn
    have hd' := opp_lt_four d
    obtain ⟨hval, hmn, -, -⟩ := neighbor_spec cfg c d hc hd hn
    obtain ⟨k1, k2⟩ := hknown_false c d hc hd hn
    obtain ⟨k3, k4⟩ := hknown_false _ _ hval hd' hmn
    rw [k1, k2, k3, k4]
    exact ⟨rfl, rfl⟩
  · intro c d hc hd hn
    have h0 : 0 < cfg.H := by
      rcases Nat.eq_zero_or_pos cfg.H with h | h
      · simp [h] at hc
      · exact h
    have hx := getX_lt cfg c hc
    have hy := getY_lt cfg c h0
    have hcell := getCell_getX_getY cfg c
    have hhit : perimHit cfg (Maze.getX cfg c) (Maze.getY cfg c) d := by
      rw [perimHit_iff cfg _ _ d hx hy hd, hcell]
      exact hn
    constructor
    · rw [hws.1, (hchar c d).1]
      exact ⟨_, hx, _, hy, hcell.symm, hhit⟩
    · rw [hws.2, (hchar c d).2]
      exact ⟨_, hx, _, hy, hcell.symm, hhit⟩
  · intro e he
    have : (Algo.initState cfg).hist = [] := by
      have := initPerimeter_wallsOnlyExt cfg freshSt
      exact this.2.2.2.2.2.1
    rw [this] at he
    exact absurd he (List.not_mem_nil e)
  · intro c d hc hd hn hk
    have := (hknown_false c d hc hd hn).1
    rw [this] at hk
    exact Bool.noConfusion hk

theorem testBit_one_shiftLeft (k j : Nat) :
    (1 <<< k).testBit j = decide (k = j) := by
  rw [Nat.shiftLeft_eq, Nat.one_mul, Nat.testBit_two_pow]

/-- A sensing pass from a valid pose preserves the wall invariant. -/
theorem sense_preserves (cfg : Cfg) (api : Api) (s : St) (hmx : s.mx < cfg.W)
    (hmy : s.my < cfg.H) (hinv : WallInv cfg s) :
    WallInv cfg (Algo.readWalls cfg api s) := by
  obtain ⟨hsymm, hperim, hhist, hcover⟩ := hinv
  have hcell : Maze.getCell cfg s.mx s.my < cfg.W * cfg.H :=
    getCell_lt cfg _ _ hmx hmy
  -- the invariant carried through the three sensing iterations
  have hstep : ∀ (sd : St × Nat) (i : Nat),
      (SymmWalls cfg sd.1 ∧ PerimKnown cfg sd.1 ∧
       sd.1.mx = s.mx ∧ sd.1.my = s.my ∧ sd.1.hist = s.hist ∧
       (∀ d, d < 4 → sd.2.testBit (d + 4) = true →
         Algo.hasNeighboringCell cfg (Maze.getCell cfg s.mx s.my) d = true) ∧
       (∀ c d, c < cfg.W * cfg.H → d < 4 →
         Algo.hasNeighboringCell cfg c d = true → sd.1.known c d = true →
         Covered cfg s.hist c d ∨
           coveredByData cfg (Maze.getCell cfg s.mx s.my) sd.2 c d)) →
      (SymmWalls cfg (Algo.readWallsIter cfg api sd i).1 ∧
       PerimKnown cfg (Algo.readWallsIter cfg api sd i).1 ∧
       (Algo.readWallsIter cfg api sd i).1.mx = s.mx ∧
       (Algo.readWallsIter cfg api sd i).1.my = s.my ∧
       (Algo.readWallsIter cfg api sd i).1.hist = s.hist ∧
       (∀ d, d < 4 → (Algo.readWallsIter cfg api sd i).2.testBit (d + 4) = true →
         Algo.hasNeighboringCell cfg (Maze.getCell cfg s.mx s.my) d = true) ∧
       (∀ c d, c < cfg.W * cfg.H → d < 4 →
         Algo.hasNeighboringCell cfg c d = true →
         (Algo.readWallsIter cfg api sd i).1.known c d = true →
         Covered cfg s.hist c d ∨
           coveredByData cfg (Maze.getCell cfg s.mx s.my)
             (Algo.readWallsIter cfg api sd i).2 c d)) := by
    rintro ⟨s1, data⟩ i ⟨m1, m2, m3, m4, m5, m6, m7⟩
    unfold Algo.readWallsIter
    simp only []
    by_cases hk : Maze.isKnown s1 (Maze.getCell cfg s1.mx s1.my)
        ((s1.md + i + 3) % 4) = true
    · rw [if_pos hk]
      exact ⟨m1, m2, m3, m4, m5, m6, m7⟩
    · rw [if_neg hk]
      simp only []
      have hdir : (s1.md + i + 3) % 4 < 4 := Nat.mod_lt _ (by decide)
      have hc1 : Maze.getCell cfg s1.mx s1.my = Maze.getCell cfg s.mx s.my := by
        rw [m3, m4]
      have hnb : Algo.hasNeighboringCell cfg (Maze.getCell cfg s.mx s.my)
          ((s1.md + i + 3) % 4) = true := by
        by_contra hfalse
        have hf : Algo.hasNeighboringCell cfg (Maze.getCell cfg s.mx s.my)
            ((s1.md + i + 3) % 4) = false := by
          revert hfalse
          cases Algo.hasNeighboringCell cfg (Maze.getCell cfg s.mx s.my)
            ((s1.md + i + 3) % 4) <;> simp
        have := (m2 _ _ hcell hdir hf).1
        rw [← hc1] at this
        exact hk this
      set w := Algo.readWall api s1 ((s1.md + i + 3) % 4) with hw
      have hext := setCellWall_wallsOnlyExt cfg s1
        (Maze.getCell cfg s1.mx s1.my) ((s1.md + i + 3) % 4) w
      rw [hc1] at hext ⊢
      refine ⟨?_, ?_, ?_, ?_, ?_, ?_, ?_⟩
      · exact setCellWall_symm cfg s1 _ _ w hcell hdir m1
      · exact setCellWall_perim cfg s1 _ _ w hcell hdir hnb m2
      · exact hext.2.2.2.2.2.2.1.trans m3
      · exact hext.2.2.2.2.2.2.2.1.trans m4
      · exact hext.2.2.2.2.2.1.trans m5
      · intro d hd hbit
        -- a conditional wall bit sits below position 4 and never affects
        -- the learned bits
        have hlow : ∀ (D j : Nat), 4 ≤ j →
            (if w = true then D ||| 1 <<< ((s1.md + i + 3) % 4) else D).testBit j
              = D.testBit j := by
          intro D j hj
          rcases Bool.eq_false_or_eq_true w with hwv | hwv
          · rw [hwv]
            have h2 : (1 <<< ((s1.md + i + 3) % 4)).testBit j = false := by
              rw [testBit_one_shiftLeft]
              have hne : ¬ ((s1.md + i + 3) % 4 = j) := by omega
              simp [hne]
            simp only [eq_self_iff_true, if_true, Nat.testBit_or, h2,
              Bool.or_false]
          · rw [hwv]
            simp
        rw [hlow _ _ (by omega)] at hbit
        rw [Nat.testBit_or, testBit_one_shiftLeft] at hbit
        rw [Bool.or_eq_true] at hbit
        rcases hbit with hb | hb
        · exact m6 d hd hb
        · have : (s1.md + i + 3) % 4 + 4 = d + 4 := of_decide_eq_true hb
          have : (s1.md + i + 3) % 4 = d := by omega
          rw [← this]
          exact hnb
      · intro c d hcv hdv hnv hkv
        have hlow : ∀ (D j : Nat), 4 ≤ j →
            (if w = true then D ||| 1 <<< ((s1.md + i + 3) % 4) else D).testBit j
              = D.testBit j := by
          intro D j hj
          rcases Bool.eq_false_or_eq_true w with hwv | hwv
          · rw [hwv]
            have h2 : (1 <<< ((s1.md + i + 3) % 4)).testBit j = false := by
              rw [testBit_one_shiftLeft]
              have hne : ¬ ((s1.md + i + 3) % 4 = j) := by omega
              simp [hne]
            simp only [eq_self_iff_true, if_true, Nat.testBit_or, h2,
              Bool.or_false]
          · rw [hwv]
            simp
        have hpt := setCellWall_point cfg s1 (Maze.getCell cfg s.mx s.my)
          ((s1.md + i + 3) % 4) w c d
        by_cases hhit : (c = Maze.getCell cfg s.mx s.my ∧ d = (s1.md + i + 3) % 4) ∨
            (Algo.hasNeighboringCell cfg (Maze.getCell cfg s.mx s.my)
              ((s1.md + i + 3) % 4) = true ∧
             c = Algo.getNeighboringCell cfg (Maze.getCell cfg s.mx s.my)
              ((s1.md + i + 3) % 4) ∧
             d = Algo.getOppositeDirection ((s1.md + i + 3) % 4))
        · right
          refine ⟨(s1.md + i + 3) % 4, hdir, ?_, ?_⟩
          · rw [hlow _ _ (by omega), Nat.testBit_or, testBit_one_shiftLeft]
            simp
          · exact hhit
        · have hun := (hpt.2 hhit).1
          rw [hun] at hkv
          rcases m7 c d hcv hdv hnv hkv with hcv2 | hcv2
          · exact Or.inl hcv2
          · right
            obtain ⟨d', hd', hbit, hsh⟩ := hcv2
            refine ⟨d', hd', ?_, hsh⟩
            rw [hlow _ _ (by omega), Nat.testBit_or, testBit_one_shiftLeft, hbit]
            simp
  -- apply the three iterations
  have hmid0 : SymmWalls cfg s ∧ PerimKnown cfg s ∧ s.mx = s.mx ∧ s.my = s.my ∧
      s.hist = s.hist ∧
      (∀ d, d < 4 → (0 : Nat).testBit (d + 4) = true →
        Algo.hasNeighboringCell cfg (Maze.getCell cfg s.mx s.my) d = true) ∧
      (∀ c d, c < cfg.W * cfg.H → d < 4 →
        Algo.hasNeighboringCell cfg c d = true → s.known c d = true →
        Covered cfg s.hist c d ∨
          coveredByData cfg (Maze.getCell cfg s.mx s.my) (0 : Nat) c d) := by
    refine ⟨hsymm, hperim, rfl, rfl, rfl, ?_, ?_⟩
    · intro d hd hbit
      rw [Nat.zero_testBit] at hbit
      exact Bool.noConfusion hbit
    · intro c d hcv hdv hnv hkv
      exact Or.inl (hcover c d hcv hdv hnv hkv)
  have hfold := hstep _ 2 (hstep _ 1 (hstep (s, 0) 0 hmid0))
  -- the folded pair
  have hfexp : (List.range 3).foldl (Algo.readWallsIter cfg api) (s, 0) =
      Algo.readWallsIter cfg api
        (Algo.readWallsIter cfg api (Algo.readWallsIter cfg api (s, 0) 0) 1) 2 := by
    rfl
  obtain ⟨f1, f2, f3, f4, f5, f6, f7⟩ := hfold
  unfold Algo.readWalls
  rw [hfexp]
  set sd := Algo.readWallsIter cfg api
    (Algo.readWallsIter cfg api (Algo.readWallsIter cfg api (s, 0) 0) 1) 2 with hsd
  refine ⟨?_, ?_, ?_, ?_⟩
  · exact f1
  · exact f2
  · -- HistOK of the final state
    intro e he
    simp only [History.add] at he
    by_cases hz : sd.2 ≠ 0
    · rw [if_pos hz] at he
      rcases List.mem_cons.mp he with heq | hmem
      · subst heq
        exact ⟨hcell, fun d hd hbit => f6 d hd hbit⟩
      · rw [f5] at hmem
        exact hhist e hmem
    · rw [if_neg hz] at he
      rw [f5] at he
      exact hhist e he
  · -- CoverInv of the final state
    intro c d hcv hdv hnv hkv
    have := f7 c d hcv hdv hnv hkv
    simp only [History.add]
    by_cases hz : sd.2 ≠ 0
    · rw [if_pos hz]
      rcases this with hcv2 | hcv2
      · obtain ⟨e, hmem, hdata⟩ := hcv2
        refine ⟨e, ?_, hdata⟩
        rw [f5]
        exact List.mem_cons_of_mem _ hmem
      · exact ⟨(Maze.getCell cfg s.mx s.my, sd.2), List.mem_cons_self _ _, hcv2⟩
    · rw [if_neg hz]
      rcases this with hcv2 | hcv2
      · obtain ⟨e, hmem, hdata⟩ := hcv2
        refine ⟨e, ?_, hdata⟩
        rw [f5]
        exact hmem
      · obtain ⟨d', hd', hbit, -⟩ := hcv2
        push_neg at hz
        rw [hz, Nat.zero_testBit] at hbit
        exact Bool.noConfusion hbit

theorem unsetCellWall_known_mono (cfg : Cfg) (s : St) (c d c' d' : Nat)
    (h : (Algo.unsetCellWall cfg s c d).known c' d' = true) :
    s.known c' d' = true := by
  have hpt := unsetCellWall_point cfg s c d c' d'
  by_cases hhit : (c' = c ∧ d' = d) ∨
      (Algo.hasNeighboringCell cfg c d = true ∧
       c' = Algo.getNeighboringCell cfg c d ∧
       d' = Algo.getOppositeDirection d)
  · rw [hpt.1 hhit] at h
    exact Bool.noConfusion h
  · rw [hpt.2.1 hhit] at h
    exact h

theorem foldl_known_mono {α : Type} (f : St → α → St)
    (hf : ∀ s a c d, (f s a).known c d = true → s.known c d = true) :
    ∀ (l : List α) (s : St) (c d : Nat),
      ((l.foldl f s).known c d = true → s.known c d = true) := by
  intro l
  induction l with
  | nil => intro s c d h; exact h
  | cons a l ih =>
    intro s c d h
    exact hf s a c d (ih (f s a) c d h)

theorem undoEntry_known_mono (cfg : Cfg) (s : St) (e : Nat × Nat) (c d : Nat)
    (h : (Algo.undoEntry cfg s e).known c d = true) : s.known c d = true := by
  revert h
  unfold Algo.undoEntry
  apply foldl_known_mono
  intro s' a c' d' h
  by_cases hb : e.2.testBit (a + 4) = true
  · rw [if_pos hb] at h
    exact unsetCellWall_known_mono cfg s' e.1 a c' d' h
  · rw [if_neg hb] at h
    exact h

theorem histUndo_known_mono (cfg : Cfg) (l : List (Nat × Nat)) (s : St)
    (c d : Nat) (h : ((l.foldl (Algo.undoEntry cfg) s).known c d = true)) :
    s.known c d = true :=
  foldl_known_mono _ (fun s' e c' d' h' => undoEntry_known_mono cfg s' e c' d' h')
    l s c d h

/-- Processing one history entry clears both sides of each recorded wall. -/
theorem undoEntry_clears (cfg : Cfg) (s : St) (e : Nat × Nat) (d' : Nat)
    (hd' : d' < 4) (hbit : e.2.testBit (d' + 4) = true) :
    (Algo.undoEntry cfg s e).known e.1 d' = false ∧
    (Algo.hasNeighboringCell cfg e.1 d' = true →
      (Algo.undoEntry cfg s e).known (Algo.getNeighboringCell cfg e.1 d')
        (Algo.getOppositeDirection d') = false) := by
  have hgen : ∀ (l : List Nat) (s' : St), d' ∈ l →
      ((l.foldl (fun s direction =>
        if e.2.testBit (direction + 4) = true then
          Algo.unsetCellWall cfg s e.1 direction else s) s').known e.1 d'
        = false ∧
      (Algo.hasNeighboringCell cfg e.1 d' = true →
        (l.foldl (fun s direction =>
          if e.2.testBit (direction + 4) = true then
            Algo.unsetCellWall cfg s e.1 direction else s) s').known
          (Algo.getNeighboringCell cfg e.1 d')
          (Algo.getOppositeDirection d') = false)) := by
    intro l
    induction l with
    | nil => intro s' hmem; exact absurd hmem (List.not_mem_nil d')
    | cons a l ih =>
      intro s' hmem
      rcases List.mem_cons.mp hmem with rfl | hmem'
      · -- this iteration unsets the recorded wall; later iterations never
        -- set a wall back
        have hfalse1 : (Algo.unsetCellWall cfg s' e.1 d').known e.1 d'
            = false :=
          (unsetCellWall_point cfg s' e.1 d' e.1 d').1 (Or.inl ⟨rfl, rfl⟩)
        have hmono := foldl_known_mono (fun s direction =>
          if e.2.testBit (direction + 4) = true then
            Algo.unsetCellWall cfg s e.1 direction else s)
          (fun s a c d h => by
            dsimp only at h
            by_cases hb : e.2.testBit (a + 4) = true
            · rw [if_pos hb] at h
              exact unsetCellWall_known_mono cfg s e.1 a c d h
            · rw [if_neg hb] at h
              exact h) l
        constructor
        · rw [List.foldl_cons, if_pos hbit]
          cases hfin : (l.foldl (fun s direction =>
            if e.2.testBit (direction + 4) = true then
              Algo.unsetCellWall cfg s e.1 direction else s)
            (Algo.unsetCellWall cfg s' e.1 d')).known e.1 d'
          · rfl
          · have := hmono _ _ _ hfin
            rw [hfalse1] at this
            exact this.symm
        · intro hnb
          have hfalse2 : (Algo.unsetCellWall cfg s' e.1 d').known
              (Algo.getNeighboringCell cfg e.1 d')
              (Algo.getOppositeDirection d') = false :=
            (unsetCellWall_point cfg s' e.1 d' _ _).1 (Or.inr ⟨hnb, rfl, rfl⟩)
          rw [List.foldl_cons, if_pos hbit]
          cases hfin : (l.foldl (fun s direction =>
            if e.2.testBit (direction + 4) = true then
              Algo.unsetCellWall cfg s e.1 direction else s)
            (Algo.unsetCellWall cfg s' e.1 d')).known
            (Algo.getNeighboringCell cfg e.1 d')
            (Algo.getOppositeDirection d')
          · rfl
          · have := hmono _ _ _ hfin
            rw [hfalse2] at this
            exact this.symm
      · rw [List.foldl_cons]
        exact ih _ hmem'
  have hd4 : d' ∈ List.range 4 := List.mem_range.mpr hd'
  exact hgen (List.range 4) s hd4

/-- Draining the whole history clears both sides of every recorded wall. -/
theorem histUndo_clears (cfg : Cfg) (l : List (Nat × Nat)) (s : St)
    (e : Nat × Nat) (hmem : e ∈ l) (d' : Nat) (hd' : d' < 4)
    (hbit : e.2.testBit (d' + 4) = true) :
    ((l.foldl (Algo.undoEntry cfg) s).known e.1 d' = false ∧
    (Algo.hasNeighboringCell cfg e.1 d' = true →
      (l.foldl (Algo.undoEntry cfg) s).known
        (Algo.getNeighboringCell cfg e.1 d')
        (Algo.getOppositeDirection d') = false)) := by
  induction l generalizing s with
  | nil => exact absurd hmem (List.not_mem_nil e)
  | cons a l ih =>
    rcases List.mem_cons.mp hmem with rfl | hmem'
    · have hcl := undoEntry_clears cfg s e d' hd' hbit
      constructor
      · rw [List.foldl_cons]
        cases hfin : (l.foldl (Algo.undoEntry cfg)
            (Algo.undoEntry cfg s e)).known e.1 d'
        · rfl
        · have := histUndo_known_mono cfg l _ _ _ hfin
          rw [hcl.1] at this
          exact this.symm
      · intro hnb
        rw [List.foldl_cons]
        cases hfin : (l.foldl (Algo.undoEntry cfg)
            (Algo.undoEntry cfg s e)).known
            (Algo.getNeighboringCell cfg e.1 d')
            (Algo.getOppositeDirection d')
        · rfl
        · have := histUndo_known_mono cfg l _ _ _ hfin
          rw [hcl.2 hnb] at this
          exact this.symm
    · rw [List.foldl_cons]
      exact ih (Algo.undoEntry cfg s a) hmem'

theorem unsetCellWall_wallp (cfg : Cfg) (s : St) (c d : Nat) :
    (Algo.unsetCellWall cfg s c d).wallp = s.wallp :=
  (unsetCellWall_point cfg s c d 0 0).2.2

theorem histUndo_wallp (cfg : Cfg) (l : List (Nat × Nat)) (s : St) :
    (l.foldl (Algo.undoEntry cfg) s).wallp = s.wallp := by
  induction l generalizing s with
  | nil => rfl
  | cons a l ih =>
    rw [List.foldl_cons, ih]
    unfold Algo.undoEntry
    have : ∀ (ds : List Nat) (s' : St),
        ((ds.foldl (fun s direction =>
          if a.2.testBit (direction + 4) = true then
            Algo.unsetCellWall cfg s a.1 direction else s) s').wallp
          = s'.wallp) := by
      intro ds
      induction ds with
      | nil => intro s'; rfl
      | cons b ds ihd =>
        intro s'
        rw [List.foldl_cons, ihd]
        by_cases hb : a.2.testBit (b + 4) = true
        · rw [if_pos hb]
          exact unsetCellWall_wallp cfg s' a.1 b
        · rw [if_neg hb]
    exact this (List.range 4) s

/-- Draining the history never touches a perimeter wall (every recorded
learned bit names an interior wall). -/
theorem histUndo_frame_perim (cfg : Cfg) (l : List (Nat × Nat)) (s : St)
    (hok : ∀ e ∈ l, e.1 < cfg.W * cfg.H ∧
      ∀ d, d < 4 → e.2.testBit (d + 4) = true →
        Algo.hasNeighboringCell cfg e.1 d = true)
    (a ε : Nat) (hna : Algo.hasNeighboringCell cfg a ε = false) :
    (l.foldl (Algo.undoEntry cfg) s).known a ε = s.known a ε := by
  induction l generalizing s with
  | nil => rfl
  | cons e l ih =>
    rw [List.foldl_cons]
    rw [ih (Algo.undoEntry cfg s e) (fun e' he' => hok e' (List.mem_cons_of_mem e he'))]
    obtain ⟨hev, hbits⟩ := hok e (List.mem_cons_self e l)
    unfold Algo.undoEntry
    have : ∀ (ds : List Nat) (s' : St), (∀ b ∈ ds, b < 4) →
        ((ds.foldl (fun s direction =>
          if e.2.testBit (direction + 4) = true then
            Algo.unsetCellWall cfg s e.1 direction else s) s').known a ε
          = s'.known a ε) := by
      intro ds
      induction ds with
      | nil => intro s' _; rfl
      | cons b ds ihd =>
        intro s' hv
        have hb4 : b < 4 := hv b (List.mem_cons_self b ds)
        rw [List.foldl_cons, ihd _ (fun b' hb' => hv b' (List.mem_cons_of_mem b hb'))]
        by_cases hb : e.2.testBit (b + 4) = true
        · rw [if_pos hb]
          have hnbe := hbits b hb4 hb
          have hfr : ¬ ((a = e.1 ∧ ε = b) ∨
              (Algo.hasNeighboringCell cfg e.1 b = true ∧
               a = Algo.getNeighboringCell cfg e.1 b ∧
               ε = Algo.getOppositeDirection b)) := by
            rintro (⟨h1, h2⟩ | ⟨-, h1, h2⟩)
            · rw [h1, h2] at hna
              rw [hna] at hnbe
              exact Bool.noConfusion hnbe
            · have := (neighbor_spec cfg e.1 b hev hb4 hnbe).2.1
              rw [← h1, ← h2] at this
              rw [this] at hna
              exact Bool.noConfusion hna
          exact (unsetCellWall_point cfg s' e.1 b a ε).2.1 hfr
        · rw [if_neg hb]
    exact this (List.range 4) s (fun b hb => List.mem_range.mp hb)

/-- The pose, mode and history fields after `Algo::reset`. -/
theorem reset_pose (cfg : Cfg) (s : St) :
    (Algo.reset cfg s).mx = 0 ∧ (Algo.reset cfg s).my = 0 ∧
    (Algo.reset cfg s).md = cfg.initialDirection ∧
    (Algo.reset cfg s).mode = Mode.CENTER ∧ (Algo.reset cfg s).hist = [] := by
  unfold Algo.reset
  have hext := foldl_wallsOnlyExt (Algo.undoEntry cfg)
    (fun s' e => undoEntry_wallsOnlyExt cfg s' e)
    (Maze.setStraightAwayLength
      { s with mx := 0, my := 0, md := cfg.initialDirection,
               mode := Mode.CENTER } (Maze.getCell cfg 0 0) 0).hist
    (Maze.setStraightAwayLength
      { s with mx := 0, my := 0, md := cfg.initialDirection,
               mode := Mode.CENTER } (Maze.getCell cfg 0 0) 0)
  obtain ⟨-, -, -, -, -, -, h7, h8, h9, h10, -, -⟩ := hext
  exact ⟨h7, h8, h9, h10, rfl⟩

/-- The presence bits are untouched by `Algo::reset`. -/
theorem reset_wallp (cfg : Cfg) (s : St) :
    (Algo.reset cfg s).wallp = s.wallp := by
  unfold Algo.reset
  exact histUndo_wallp cfg _ _

/-- After `Algo::reset`, every interior wall of a state satisfying the wall
invariant is unknown. -/
theorem reset_forgets (cfg : Cfg) (s : St) (hinv : WallInv cfg s) :
    ∀ c d, c < cfg.W * cfg.H → d < 4 →
      Algo.hasNeighboringCell cfg c d = true →
      (Algo.reset cfg s).known c d = false := by
  intro c d hc hd hn
  by_cases hk : s.known c d = true
  · obtain ⟨e, hmem, d', hd', hbit, hshape⟩ := hinv.2.2.2 c d hc hd hn hk
    unfold Algo.reset
    rcases hshape with ⟨hc1, hd1⟩ | ⟨hnbe, hc1, hd1⟩
    · rw [hc1, hd1]
      exact (histUndo_clears cfg _ _ e hmem d' hd' hbit).1
    · rw [hc1, hd1]
      exact (histUndo_clears cfg _ _ e hmem d' hd' hbit).2 hnbe
  · cases hfin : (Algo.reset cfg s).known c d
    · rfl
    · exfalso
      apply hk
      exact histUndo_known_mono cfg s.hist
        (Maze.setStraightAwayLength
          { s with mx := 0, my := 0, md := cfg.initialDirection,
                   mode := Mode.CENTER } (Maze.getCell cfg 0 0) 0) c d hfin

/-- `Algo::reset` preserves the wall invariant. -/
theorem reset_preserves (cfg : Cfg) (s : St) (hinv : WallInv cfg s) :
    WallInv cfg (Algo.reset cfg s) := by
  have hforget := reset_forgets cfg s hinv
  have hwallp := reset_wallp cfg s
  have hperim : ∀ a ε, Algo.hasNeighboringCell cfg a ε = false →
      (Algo.reset cfg s).known a ε = s.known a ε := by
    intro a ε hna
    unfold Algo.reset
    exact histUndo_frame_perim cfg _ _ (fun e he => hinv.2.2.1 e he) a ε hna
  refine ⟨?_, ?_, ?_, ?_⟩
  · intro a ε ha hε hna
    obtain ⟨hval, hmn, -, -⟩ := neighbor_spec cfg a ε ha hε hna
    constructor
    · rw [hforget a ε ha hε hna, hforget _ _ hval (opp_lt_four ε) hmn]
    · rw [hwallp]
      exact (hinv.1 a ε ha hε hna).2
  · intro a ε ha hε hna
    rw [hperim a ε hna, hwallp]
    exact hinv.2.1 a ε ha hε hna
  · intro e he
    rw [(reset_pose cfg s).2.2.2.2] at he
    exact absurd he (List.not_mem_nil e)
  · intro c d hc hd hn hk
    rw [hforget c d hc hd hn] at hk
    exact Bool.noConfusion hk

/-- Every reachable state satisfies the wall invariant. -/
theorem reach_wallInv (cfg : Cfg) (s : St) (h : Reach cfg s) : WallInv cfg s := by
  induction h with
  | init => exact init_wallInv cfg
  | sense api s hr hmx hmy ih => exact sense_preserves cfg api s hmx hmy ih
  | reset_ev s hr ih => exact reset_preserves cfg s ih
  | frame s s' hr e1 e2 e3 ih =>
    obtain ⟨i1, i2, i3, i4⟩ := ih
    refine ⟨fun c d hc hd hn => ?_, fun c d hc hd hn => ?_,
      fun e he => ?_, fun c d hc hd hn hk => ?_⟩
    · rw [e1, e2]
      exact i1 c d hc hd hn
    · rw [e1, e2]
      exact i2 c d hc hd hn
    · rw [e3] at he
      exact i3 e he
    · unfold Covered
      rw [e3]
      rw [e1] at hk
      exact i4 c d hc hd hn hk

/-! ## Claim C2: reset is a true inverse of wall learning -/

/-- C2: in every reachable state, after one `reset()` every non-perimeter
wall (each side being its own (cell, direction) pair, so this covers both
sides of each wall) that was reported known beforehand is reported unknown
afterward, and the mouse position, heading and goal mode equal their
initial values: position (0,0), the configured initial heading, mode
CENTER. -/
theorem claim_C2_reset_inverse (cfg : Cfg) (s : St) (hr : Reach cfg s)
    (c d : Nat) (hc : c < cfg.W * cfg.H) (hd : d < 4)
    (hn : Algo.hasNeighboringCell cfg c d = true) :
    (s.known c d = true → (Algo.reset cfg s).known c d = false) ∧
    (Algo.reset cfg s).mx = 0 ∧ (Algo.reset cfg s).my = 0 ∧
    (Algo.reset cfg s).md = cfg.initialDirection ∧
    (Algo.reset cfg s).mode = Mode.CENTER := by
  have hinv := reach_wallInv cfg s hr
  have hp := reset_pose cfg s
  exact ⟨fun _ => reset_forgets cfg s hinv c d hc hd hn,
    hp.1, hp.2.1, hp.2.2.1, hp.2.2.2.1⟩

/-- C2, witness: on the 2×2 grid, sensing at (0,0) learns the east wall of
(0,0); it is known after the sensing pass and unknown after `reset()`, and
the pose is restored. -/
theorem claim_C2_reset_inverse_witness :
    (Algo.readWalls cfg2 api2 (Algo.initState cfg2)).known
      (Maze.getCell cfg2 0 0) Direction.EAST = true ∧
    (((Algo.readWalls cfg2 api2 (Algo.initState cfg2)).known
        (Maze.getCell cfg2 0 0) Direction.EAST = true →
      (Algo.reset cfg2 (Algo.readWalls cfg2 api2 (Algo.initState cfg2))).known
        (Maze.getCell cfg2 0 0) Direction.EAST = false) ∧
    (Algo.reset cfg2 (Algo.readWalls cfg2 api2 (Algo.initState cfg2))).mx = 0 ∧
    (Algo.reset cfg2 (Algo.readWalls cfg2 api2 (Algo.initState cfg2))).my = 0 ∧
    (Algo.reset cfg2 (Algo.readWalls cfg2 api2 (Algo.initState cfg2))).md
      = cfg2.initialDirection ∧
    (Algo.reset cfg2 (Algo.readWalls cfg2 api2 (Algo.initState cfg2))).mode
      = Mode.CENTER) :=
  ⟨by decide,
    claim_C2_reset_inverse cfg2 (Algo.readWalls cfg2 api2 (Algo.initState cfg2))
      (Reach.sense api2 (Algo.initState cfg2) Reach.init (by decide) (by decide))
      (Maze.getCell cfg2 0 0) Direction.EAST (by decide) (by decide) (by decide)⟩

/-! ## Claim C4: wall symmetry and perimeter invariants -/

/-- C4: in every reachable state (i.e. the property is preserved by every
wall update the navigator performs, including those of `reset()`), wall
knowledge is symmetric — a known direction's neighbouring cell, when it
exists, knows the opposite direction with the same presence value — and
every perimeter wall is known and present. -/
theorem claim_C4_wall_symmetry (cfg : Cfg) (s : St) (hr : Reach cfg s) :
    (∀ c d, c < cfg.W * cfg.H → d < 4 →
      Algo.hasNeighboringCell cfg c d = true → s.known c d = true →
      s.known (Algo.getNeighboringCell cfg c d)
        (Algo.getOppositeDirection d) = true ∧
      s.wallp c d = s.wallp (Algo.getNeighboringCell cfg c d)
        (Algo.getOppositeDirection d)) ∧
    (∀ c d, c < cfg.W * cfg.H → d < 4 →
      Algo.hasNeighboringCell cfg c d = false →
      s.known c d = true ∧ s.wallp c d = true) := by
  obtain ⟨h1, h2, -, -⟩ := reach_wallInv cfg s hr
  refine ⟨fun c d hc hd hn hk => ?_, h2⟩
  obtain ⟨e1, e2⟩ := h1 c d hc hd hn
  refine ⟨?_, e2⟩
  rw [← e1]
  exact hk

/-- C4, witness: the invariant instantiated at the reachable state obtained
by sensing at (0,0) and then resetting, on the 2×2 grid. -/
theorem claim_C4_wall_symmetry_witness :
    (∀ c d, c < cfg2.W * cfg2.H → d < 4 →
      Algo.hasNeighboringCell cfg2 c d = true →
      (Algo.reset cfg2 (Algo.readWalls cfg2 api2 (Algo.initState cfg2))).known
        c d = true →
      (Algo.reset cfg2 (Algo.readWalls cfg2 api2 (Algo.initState cfg2))).known
        (Algo.getNeighboringCell cfg2 c d)
        (Algo.getOppositeDirection d) = true ∧
      (Algo.reset cfg2 (Algo.readWalls cfg2 api2 (Algo.initState cfg2))).wallp
        c d =
      (Algo.reset cfg2 (Algo.readWalls cfg2 api2 (Algo.initState cfg2))).wallp
        (Algo.getNeighboringCell cfg2 c d) (Algo.getOppositeDirection d)) ∧
    (∀ c d, c < cfg2.W * cfg2.H → d < 4 →
      Algo.hasNeighboringCell cfg2 c d = false →
      (Algo.reset cfg2 (Algo.readWalls cfg2 api2 (Algo.initState cfg2))).known
        c d = true ∧
      (Algo.reset cfg2 (Algo.readWalls cfg2 api2 (Algo.initState cfg2))).wallp
        c d = true) :=
  claim_C4_wall_symmetry cfg2
    (Algo.reset cfg2 (Algo.readWalls cfg2 api2 (Algo.initState cfg2)))
    (Reach.reset_ev (Algo.readWalls cfg2 api2 (Algo.initState cfg2))
      (Reach.sense api2 (Algo.initState cfg2) Reach.init (by decide) (by decide)))

/-! ## Claim C3: followPath only crosses known edges -/

theorem moveOneCell_frame (cfg : Cfg) (s : St) (target : Nat) :
    (Algo.moveOneCell cfg s target).known = s.known ∧
    (Algo.moveOneCell cfg s target).wallp = s.wallp ∧
    (Algo.moveOneCell cfg s target).hasNext = s.hasNext ∧
    (Algo.moveOneCell cfg s target).nextDir = s.nextDir ∧
    (Algo.moveOneCell cfg s target).polls = s.polls := by
  unfold Algo.moveOneCell
  split
  · exact ⟨rfl, rfl, rfl, rfl, rfl⟩
  · refine ⟨?_, ?_, ?_, ?_, ?_⟩ <;> (simp only []; repeat' split) <;> rfl

/-- Unfolding of one executed iteration of the `followPath` loop. -/
theorem followPathAux_succ_true (cfg : Cfg) (api : Api) (fuel : Nat) (s : St)
    (c : Nat) (hg : Maze.hasNext s c = true ∧
      Maze.isKnown s c (Maze.getNextDirection s c) = true) :
    Algo.followPathAux cfg api (fuel + 1) s c =
      (if (Algo.moveOneCell cfg s (Algo.getNeighboringCell cfg c
            (Maze.getNextDirection s c))).aborted = true then
        Algo.moveOneCell cfg s (Algo.getNeighboringCell cfg c
          (Maze.getNextDirection s c))
      else if api.wasReset (Algo.moveOneCell cfg s
            (Algo.getNeighboringCell cfg c (Maze.getNextDirection s c))).polls
            = true then
        { Algo.moveOneCell cfg s (Algo.getNeighboringCell cfg c
            (Maze.getNextDirection s c)) with
          polls := (Algo.moveOneCell cfg s (Algo.getNeighboringCell cfg c
            (Maze.getNextDirection s c))).polls + 1 }
      else
        Algo.followPathAux cfg api fuel
          { Algo.moveOneCell cfg s (Algo.getNeighboringCell cfg c
              (Maze.getNextDirection s c)) with
            polls := (Algo.moveOneCell cfg s (Algo.getNeighboringCell cfg c
              (Maze.getNextDirection s c))).polls + 1 }
          (Algo.getNeighboringCell cfg c (Maze.getNextDirection s c))) := by
  conv_lhs => unfold Algo.followPathAux
  rw [if_pos hg]
  simp only [Algo.resetButtonPressed]

/-- Unfolding of a stopped `followPath` loop. -/
theorem followPathAux_succ_false (cfg : Cfg) (api : Api) (fuel : Nat) (s : St)
    (c : Nat) (hg : ¬ (Maze.hasNext s c = true ∧
      Maze.isKnown s c (Maze.getNextDirection s c) = true)) :
    Algo.followPathAux cfg api (fuel + 1) s c = s := by
  conv_lhs => unfold Algo.followPathAux
  rw [if_neg hg]

theorem chainCell_congr (cfg : Cfg) (s s' : St) (h : s'.nextDir = s.nextDir)
    (start : Nat) : ∀ i, chainCell cfg s' start i = chainCell cfg s start i := by
  intro i
  induction i with
  | zero => rfl
  | succ i ih =>
    show Algo.getNeighboringCell cfg (chainCell cfg s' start i)
        (Maze.getNextDirection s' (chainCell cfg s' start i)) = _
    rw [ih]
    show Algo.getNeighboringCell cfg _ (s'.nextDir _) = _
    rw [h]
    rfl

theorem chainCell_shift (cfg : Cfg) (s : St) (start : Nat) :
    ∀ i, chainCell cfg s
      (Algo.getNeighboringCell cfg start (Maze.getNextDirection s start)) i =
      chainCell cfg s start (i + 1) := by
  intro i
  induction i with
  | zero => rfl
  | succ i ih =>
    show Algo.getNeighboringCell cfg _ _ = _
    rw [ih]
    rfl

theorem followPathAux_polls_mono (cfg : Cfg) (api : Api) :
    ∀ (fuel : Nat) (s : St) (c : Nat),
      s.polls ≤ (Algo.followPathAux cfg api fuel s c).polls := by
  intro fuel
  induction fuel with
  | zero => intro s c; exact Nat.le_refl _
  | succ fuel ih =>
    intro s c
    by_cases hg : Maze.hasNext s c = true ∧
        Maze.isKnown s c (Maze.getNextDirection s c) = true
    · rw [followPathAux_succ_true cfg api fuel s c hg]
      set next := Algo.getNeighboringCell cfg c (Maze.getNextDirection s c)
        with hnext
      have hmf := moveOneCell_frame cfg s next
      by_cases hab : (Algo.moveOneCell cfg s next).aborted = true
      · rw [if_pos hab, hmf.2.2.2.2]
      · rw [if_neg hab]
        by_cases hpr : api.wasReset (Algo.moveOneCell cfg s next).polls = true
        · rw [if_pos hpr]
          show s.polls ≤ (Algo.moveOneCell cfg s next).polls + 1
          rw [hmf.2.2.2.2]
          omega
        · rw [if_neg hpr]
          have := ih { Algo.moveOneCell cfg s next with
            polls := (Algo.moveOneCell cfg s next).polls + 1 } next
          refine Nat.le_trans ?_ this
          show s.polls ≤ (Algo.moveOneCell cfg s next).polls + 1
          rw [hmf.2.2.2.2]
          omega
    · rw [followPathAux_succ_false cfg api fuel s c hg]

/-- C3: `followPath` advances the mouse only through edges of the planned
chain whose wall status is known: writing `k` for the number of executed
hops, (i) every executed hop `i < k` crossed a chain edge that had a next
pointer and a known wall, (ii) execution stops at or before the first chain
index whose edge has no next pointer or an unknown wall, (iii) if the reset
signal is pending at the poll after hop `i`, at most `i + 1` hops are ever
executed (the loop stops at the first poll that observes the signal), and
(iv) the walls themselves are untouched by path execution. -/
theorem claim_C3_followPath (cfg : Cfg) (api : Api) (fuel : Nat) (s : St)
    (start : Nat) :
    (∀ i, i < hopsTaken cfg api fuel s start →
      Maze.hasNext s (chainCell cfg s start i) = true ∧
      Maze.isKnown s (chainCell cfg s start i)
        (Maze.getNextDirection s (chainCell cfg s start i)) = true) ∧
    (∀ j, (Maze.hasNext s (chainCell cfg s start j) = false ∨
      Maze.isKnown s (chainCell cfg s start j)
        (Maze.getNextDirection s (chainCell cfg s start j)) = false) →
      hopsTaken cfg api fuel s start ≤ j) ∧
    (∀ i, api.wasReset (s.polls + i) = true →
      hopsTaken cfg api fuel s start ≤ i + 1) ∧
    (Algo.followPathAux cfg api fuel s start).known = s.known ∧
    (Algo.followPathAux cfg api fuel s start).wallp = s.wallp := by
  induction fuel generalizing s start with
  | zero =>
    refine ⟨?_, ?_, ?_, rfl, rfl⟩
    · intro i hi
      unfold hopsTaken Algo.followPathAux at hi
      omega
    · intro j _
      unfold hopsTaken Algo.followPathAux
      omega
    · intro i _
      unfold hopsTaken Algo.followPathAux
      omega
  | succ fuel ih =>
    by_cases hguard : Maze.hasNext s start = true ∧
        Maze.isKnown s start (Maze.getNextDirection s start) = true
    · -- the loop body runs
      have hunf := followPathAux_succ_true cfg api fuel s start hguard
      set next := Algo.getNeighboringCell cfg start (Maze.getNextDirection s start)
        with hnext
      have hmf := moveOneCell_frame cfg s next
      by_cases hab : (Algo.moveOneCell cfg s next).aborted = true
      · -- the assertion failed: the process dies after zero completed polls
        have hres : Algo.followPathAux cfg api (fuel + 1) s start =
            Algo.moveOneCell cfg s next := by
          rw [hunf, if_pos hab]
        have hk : hopsTaken cfg api (fuel + 1) s start = 0 := by
          unfold hopsTaken
          rw [hres, hmf.2.2.2.2]
          omega
        refine ⟨?_, ?_, ?_, ?_, ?_⟩
        · intro i hi
          rw [hk] at hi
          omega
        · intro j _
          rw [hk]
          omega
        · intro i _
          rw [hk]
          omega
        · rw [hres, hmf.1]
        · rw [hres, hmf.2.1]
      · -- the hop completed; poll the reset signal
        by_cases hpr : api.wasReset s.polls = true
        · -- the reset signal stops execution after this hop
          have hres : Algo.followPathAux cfg api (fuel + 1) s start =
              { Algo.moveOneCell cfg s next with
                polls := (Algo.moveOneCell cfg s next).polls + 1 } := by
            rw [hunf, if_neg hab, if_pos (by rw [hmf.2.2.2.2]; exact hpr)]
          have hk : hopsTaken cfg api (fuel + 1) s start = 1 := by
            unfold hopsTaken
            rw [hres]
            show (Algo.moveOneCell cfg s next).polls + 1 - s.polls = 1
            rw [hmf.2.2.2.2]
            omega
          refine ⟨?_, ?_, ?_, ?_, ?_⟩
          · intro i hi
            rw [hk] at hi
            have : i = 0 := by omega
            rw [this]
            exact hguard
          · intro j hj
            rw [hk]
            rcases Nat.eq_zero_or_pos j with rfl | hjp
            · rcases hj with hj | hj
              · rw [show chainCell cfg s start 0 = start from rfl, hguard.1] at hj
                exact Bool.noConfusion hj
              · rw [show chainCell cfg s start 0 = start from rfl] at hj
                rw [hguard.2] at hj
                exact Bool.noConfusion hj
            · omega
          · intro i _
            rw [hk]
            omega
          · rw [hres]
            show (Algo.moveOneCell cfg s next).known = s.known
            exact hmf.1
          · rw [hres]
            show (Algo.moveOneCell cfg s next).wallp = s.wallp
            exact hmf.2.1
        · -- continue with the rest of the path
          set s2 : St := { Algo.moveOneCell cfg s next with
            polls := (Algo.moveOneCell cfg s next).polls + 1 } with hs2def
          have hres : Algo.followPathAux cfg api (fuel + 1) s start =
              Algo.followPathAux cfg api fuel s2 next := by
            rw [hunf, if_neg hab, if_neg (by rw [hmf.2.2.2.2]; exact hpr)]
          have hnd : s2.nextDir = s.nextDir := hmf.2.2.2.1
          have hhn : s2.hasNext = s.hasNext := hmf.2.2.1
          have hkn : s2.known = s.known := hmf.1
          have hwp : s2.wallp = s.wallp := hmf.2.1
          have hpl : s2.polls = s.polls + 1 := by
            show (Algo.moveOneCell cfg s next).polls + 1 = s.polls + 1
            rw [hmf.2.2.2.2]
          have hchain : ∀ i, chainCell cfg s2 next i =
              chainCell cfg s start (i + 1) := by
            intro i
            rw [chainCell_congr cfg s s2 hnd next i, hnext]
            exact chainCell_shift cfg s start i
          obtain ⟨ih1, ih2, ih3, ih4, ih5⟩ := ih s2 next
          have hmono := followPathAux_polls_mono cfg api fuel s2 next
          have hkk : hopsTaken cfg api (fuel + 1) s start =
              hopsTaken cfg api fuel s2 next + 1 := by
            unfold hopsTaken
            rw [hres, hpl]
            omega
          refine ⟨?_, ?_, ?_, ?_, ?_⟩
          · intro i hi
            rw [hkk] at hi
            rcases Nat.eq_zero_or_pos i with rfl | hip
            · exact hguard
            · obtain ⟨i', rfl⟩ := Nat.exists_eq_add_of_lt hip
              rw [Nat.zero_add] at *
              have hlt : i' < hopsTaken cfg api fuel s2 next := by omega
              obtain ⟨w1, w2⟩ := ih1 i' hlt
              rw [hchain i'] at w1 w2
              constructor
              · show s.hasNext _ = true
                have : Maze.hasNext s2 (chainCell cfg s start (i' + 1)) = true := w1
                rw [show Maze.hasNext s2 (chainCell cfg s start (i' + 1)) =
                  s2.hasNext (chainCell cfg s start (i' + 1)) from rfl, hhn] at this
                exact this
              · show s.known _ _ = true
                have h2 : Maze.isKnown s2 (chainCell cfg s start (i' + 1))
                    (Maze.getNextDirection s2 (chainCell cfg s start (i' + 1)))
                    = true := w2
                rw [show Maze.getNextDirection s2 (chainCell cfg s start (i' + 1)) =
                  s2.nextDir (chainCell cfg s start (i' + 1)) from rfl, hnd] at h2
                rw [show Maze.isKnown s2 (chainCell cfg s start (i' + 1))
                    (s.nextDir (chainCell cfg s start (i' + 1))) =
                  s2.known (chainCell cfg s start (i' + 1))
                    (s.nextDir (chainCell cfg s start (i' + 1))) from rfl,
                  hkn] at h2
                exact h2
          · intro j hj
            rw [hkk]
            rcases Nat.eq_zero_or_pos j with rfl | hjp
            · rcases hj with hj | hj
              · rw [show chainCell cfg s start 0 = start from rfl, hguard.1] at hj
                exact Bool.noConfusion hj
              · rw [show chainCell cfg s start 0 = start from rfl] at hj
                rw [hguard.2] at hj
                exact Bool.noConfusion hj
            · obtain ⟨j', rfl⟩ := Nat.exists_eq_add_of_lt hjp
              rw [Nat.zero_add] at *
              have hj2 : Maze.hasNext s2 (chainCell cfg s2 next j') = false ∨
                  Maze.isKnown s2 (chainCell cfg s2 next j')
                    (Maze.getNextDirection s2 (chainCell cfg s2 next j'))
                    = false := by
                rw [hchain j']
                rcases hj with hj | hj
                · left
                  show s2.hasNext _ = false
                  rw [hhn]
                  exact hj
                · right
                  show s2.known _ (s2.nextDir _) = false
                  rw [hkn, hnd]
                  exact hj
              have := ih2 j' hj2
              omega
          · intro i hi
            rw [hkk]
            rcases Nat.eq_zero_or_pos i with rfl | hip
            · rw [Nat.add_zero] at hi
              rw [hi] at hpr
              exact absurd rfl hpr
            · obtain ⟨i', rfl⟩ := Nat.exists_eq_add_of_lt hip
              rw [Nat.zero_add] at *
              have : api.wasReset (s2.polls + i') = true := by
                rw [hpl]
                have : s.polls + 1 + i' = s.polls + (i' + 1) := by omega
                rw [this]
                exact hi
              have := ih3 i' this
              omega
          · rw [hres, ih4, hkn]
          · rw [hres, ih5, hwp]
    · -- the guard fails: no hop is executed
      have hres := followPathAux_succ_false cfg api fuel s start hguard
      have hk : hopsTaken cfg api (fuel + 1) s start = 0 := by
        unfold hopsTaken
        rw [hres]
        omega
      refine ⟨?_, ?_, ?_, ?_, ?_⟩
      · intro i hi
        rw [hk] at hi
        omega
      · intro j _
        rw [hk]
        omega
      · intro i _
        rw [hk]
        omega
      · rw [hres]
      · rw [hres]

/-! ## Claim C8: the path reversal is its own inverse -/

theorem setNextDirection_point (s : St) (c d x : Nat) :
    ((Maze.setNextDirection s c d).hasNext x =
      if x = c then true else s.hasNext x) ∧
    ((Maze.setNextDirection s c d).nextDir x =
      if x = c then d else s.nextDir x) := by
  constructor <;> simp [Maze.setNextDirection, upd1]

theorem clearNext_point (s : St) (c x : Nat) :
    ((Maze.clearNext s c).hasNext x = if x = c then false else s.hasNext x) ∧
    (Maze.clearNext s c).nextDir x = s.nextDir x := by
  constructor <;> simp [Maze.clearNext, upd1]

theorem revDirs_cons (d : Nat) (ds : List Nat) :
    revDirs (d :: ds) = revDirs ds ++ [Algo.getOppositeDirection d] := by
  simp [revDirs]

theorem revDirs_length (ds : List Nat) : (revDirs ds).length = ds.length := by
  simp [revDirs]

theorem revDirs_revDirs (ds : List Nat) (h : ∀ d ∈ ds, d < 4) :
    revDirs (revDirs ds) = ds := by
  unfold revDirs
  rw [List.map_reverse, List.map_map]
  have : ∀ d ∈ ds.reverse,
      (Algo.getOppositeDirection ∘ Algo.getOppositeDirection) d = id d := by
    intro d hd
    exact opp_opp d (h d (List.mem_reverse.mp hd))
  rw [List.map_congr_left this, List.map_id, List.reverse_reverse]

theorem chainCellsList_ne_nil (cfg : Cfg) (c : Nat) (ds : List Nat) :
    chainCellsList cfg c ds ≠ [] := by
  cases ds <;> simp [chainCellsList]

theorem chainCellsList_append (cfg : Cfg) :
    ∀ (L1 L2 : List Nat) (c : Nat),
      chainCellsList cfg c (L1 ++ L2) =
        (chainCellsList cfg c L1).dropLast ++
          chainCellsList cfg (chainEnd cfg c L1) L2 := by
  intro L1
  induction L1 with
  | nil => intro L2 c; simp [chainCellsList, chainEnd]
  | cons d L1 ih =>
    intro L2 c
    show (c :: chainCellsList cfg (Algo.getNeighboringCell cfg c d) (L1 ++ L2))
      = _
    rw [ih L2 (Algo.getNeighboringCell cfg c d)]
    show _ = (c :: chainCellsList cfg (Algo.getNeighboringCell cfg c d)
      L1).dropLast ++ _
    rw [List.dropLast_cons_of_ne_nil (chainCellsList_ne_nil cfg _ L1)]
    rfl

theorem WalkChain_end_valid (cfg : Cfg) (s : St) :
    ∀ (ds : List Nat) (c e : Nat), WalkChain cfg s c ds e →
      e < cfg.W * cfg.H := by
  intro ds
  induction ds with
  | nil => intro c e h; exact h.1 ▸ h.2.2
  | cons d ds ih =>
    intro c e h
    exact ih _ _ h.2.2.2.2.2

theorem WalkChain_dirs_lt (cfg : Cfg) (s : St) :
    ∀ (ds : List Nat) (c e : Nat), WalkChain cfg s c ds e →
      ∀ d ∈ ds, d < 4 := by
  intro ds
  induction ds with
  | nil => intro c e _ d hd; exact absurd hd (List.not_mem_nil d)
  | cons d0 ds ih =>
    intro c e h d hd
    rcases List.mem_cons.mp hd with rfl | hd'
    · exact h.1
    · exact ih _ _ h.2.2.2.2.2 d hd'

theorem WalkChain_congr (cfg : Cfg) (s s' : St) :
    ∀ (ds : List Nat) (c e : Nat), WalkChain cfg s c ds e →
      (∀ x ∈ chainCellsList cfg c ds,
        s'.hasNext x = s.hasNext x ∧ s'.nextDir x = s.nextDir x) →
      WalkChain cfg s' c ds e := by
  intro ds
  induction ds with
  | nil =>
    intro c e h hagree
    obtain ⟨hx, -⟩ := hagree c (by simp [chainCellsList])
    refine ⟨h.1, ?_, h.2.2⟩
    show s'.hasNext c = false
    rw [hx]
    exact h.2.1
  | cons d ds ih =>
    intro c e h hagree
    obtain ⟨h1, h2, h3, h4, h5, h6⟩ := h
    obtain ⟨hx, hd⟩ := hagree c (by simp [chainCellsList])
    refine ⟨h1, h2, ?_, ?_, h5, ?_⟩
    · rw [show Maze.hasNext s' c = s'.hasNext c from rfl, hx]
      exact h3
    · rw [show Maze.getNextDirection s' c = s'.nextDir c from rfl, hd]
      exact h4
    · exact ih _ _ h6 (fun x hx' => hagree x
        (by simp [chainCellsList]; exact Or.inr hx'))

theorem FwdChain_append (cfg : Cfg) (s : St) :
    ∀ (L1 L2 : List Nat) (a b c : Nat),
      FwdChain cfg s a L1 b → FwdChain cfg s b L2 c →
      FwdChain cfg s a (L1 ++ L2) c := by
  intro L1
  induction L1 with
  | nil =>
    intro L2 a b c h1 h2
    have : a = b := h1
    rw [List.nil_append, this]
    exact h2
  | cons d L1 ih =>
    intro L2 a b c h1 h2
    obtain ⟨k1, k2, k3, k4, k5, k6⟩ := h1
    exact ⟨k1, k2, k3, k4, k5, ih L2 _ b c k6 h2⟩

theorem FwdChain_toWalk (cfg : Cfg) (s : St) :
    ∀ (ds : List Nat) (a b : Nat), FwdChain cfg s a ds b →
      Maze.hasNext s b = false → b < cfg.W * cfg.H →
      WalkChain cfg s a ds b := by
  intro ds
  induction ds with
  | nil =>
    intro a b h hb hv
    exact ⟨h, h ▸ hb, h ▸ hv⟩
  | cons d ds ih =>
    intro a b h hb hv
    obtain ⟨k1, k2, k3, k4, k5, k6⟩ := h
    exact ⟨k1, k2, k3, k4, k5, ih _ b k6 hb hv⟩

theorem FwdChain_toBack (cfg : Cfg) (s : St) :
    ∀ (ds : List Nat) (a b : Nat), ds ≠ [] → FwdChain cfg s a ds b →
      Maze.hasNext s b = false → b < cfg.W * cfg.H →
      BackChain cfg s a ds b := by
  intro ds a b hne h hb hv
  cases ds with
  | nil => exact absurd rfl hne
  | cons d ds =>
    obtain ⟨k1, k2, k3, k4, k5, k6⟩ := h
    exact ⟨k1, k2, k4, k5, FwdChain_toWalk cfg s ds _ b k6 hb hv⟩

theorem chainEnd_append (cfg : Cfg) :
    ∀ (L1 L2 : List Nat) (c : Nat),
      chainEnd cfg c (L1 ++ L2) = chainEnd cfg (chainEnd cfg c L1) L2 := by
  intro L1
  induction L1 with
  | nil => intro L2 c; rfl
  | cons d L1 ih => intro L2 c; exact ih L2 _

/-- The `reverseLinkedList` while-loop walks a pointer chain to its end,
reversing every pointer: it returns the chain's final cell, touches no cell
outside the chain, and leaves behind the reversed chain extended by the
entry edge. -/
theorem revLLAux_walk (cfg : Cfg) :
    ∀ (ds : List Nat) (s : St) (c prevd e fuel : Nat),
      WalkChain cfg s c ds e →
      (chainCellsList cfg c ds).Nodup →
      Algo.hasNeighboringCell cfg c (Algo.getOppositeDirection prevd) = true →
      ds.length + 1 ≤ fuel →
      ∃ s',
        Algo.revLLAux cfg fuel s prevd c = some (s', e) ∧
        (∀ x, x ∉ chainCellsList cfg c ds →
          s'.hasNext x = s.hasNext x ∧ s'.nextDir x = s.nextDir x) ∧
        FwdChain cfg s' e
          (revDirs ds ++ [Algo.getOppositeDirection prevd])
          (Algo.getNeighboringCell cfg c (Algo.getOppositeDirection prevd)) ∧
        chainCellsList cfg e (revDirs ds ++ [Algo.getOppositeDirection prevd])
          = (chainCellsList cfg c ds).reverse ++
            [Algo.getNeighboringCell cfg c (Algo.getOppositeDirection prevd)] ∧
        chainEnd cfg e (revDirs ds ++ [Algo.getOppositeDirection prevd])
          = Algo.getNeighboringCell cfg c (Algo.getOppositeDirection prevd)
    := by
  intro ds
  induction ds with
  | nil =>
    intro s c prevd e fuel hch hnd hnbr hfuel
    obtain ⟨hce, hhn, hval⟩ := hch
    subst hce
    obtain ⟨f, rfl⟩ : ∃ f, fuel = f + 1 := ⟨fuel - 1, by omega⟩
    refine ⟨Maze.setNextDirection s c (Algo.getOppositeDirection prevd),
      ?_, ?_, ?_, ?_, ?_⟩
    · conv_lhs => unfold Algo.revLLAux
      rw [if_neg (by rw [hhn]; exact Bool.false_ne_true)]
    · intro x hx
      have hxc : x ≠ c := by simpa [chainCellsList] using hx
      exact ⟨by rw [(setNextDirection_point s c _ x).1, if_neg hxc],
        by rw [(setNextDirection_point s c _ x).2, if_neg hxc]⟩
    · refine ⟨opp_lt_four prevd, hval, ?_, ?_, hnbr, rfl⟩
      · show (Maze.setNextDirection s c _).hasNext c = true
        simp [Maze.setNextDirection, upd1]
      · show (Maze.setNextDirection s c _).nextDir c = _
        simp [Maze.setNextDirection, upd1]
    · simp [chainCellsList, revDirs]
    · simp [chainEnd, revDirs]
  | cons d rest ih =>
    intro s c prevd e fuel hch hnd hnbr hfuel
    obtain ⟨hd4, hcval, hhn, hdir, hnb, hsub⟩ := hch
    have hspec := neighbor_spec cfg c d hcval hd4 hnb
    have hcells : chainCellsList cfg c (d :: rest)
        = c :: chainCellsList cfg (Algo.getNeighboringCell cfg c d) rest := rfl
    rw [hcells] at hnd
    have hcnot : c ∉ chainCellsList cfg (Algo.getNeighboringCell cfg c d) rest :=
      (List.nodup_cons.mp hnd).1
    have hnd' : (chainCellsList cfg (Algo.getNeighboringCell cfg c d) rest).Nodup :=
      (List.nodup_cons.mp hnd).2
    obtain ⟨f, rfl⟩ : ∃ f, fuel = f + 1 := ⟨fuel - 1, by omega⟩
    have hfuel' : rest.length + 1 ≤ f := by
      simp only [List.length_cons] at hfuel; omega
    have hch1 : WalkChain cfg
        (Maze.setNextDirection s c (Algo.getOppositeDirection prevd))
        (Algo.getNeighboringCell cfg c d) rest e := by
      refine WalkChain_congr cfg s _ rest _ e hsub ?_
      intro x hx
      have hxc : x ≠ c := fun h => hcnot (h ▸ hx)
      exact ⟨by rw [(setNextDirection_point s c _ x).1, if_neg hxc],
        by rw [(setNextDirection_point s c _ x).2, if_neg hxc]⟩
    obtain ⟨s', hA, hB, hC, hD, hE⟩ :=
      ih (Maze.setNextDirection s c (Algo.getOppositeDirection prevd))
        (Algo.getNeighboringCell cfg c d) d e f hch1 hnd' hspec.2.1 hfuel'
    rw [hspec.2.2.1] at hC hD hE
    refine ⟨s', ?_, ?_, ?_, ?_, ?_⟩
    · conv_lhs => unfold Algo.revLLAux
      rw [if_pos hhn]
      show Algo.revLLAux cfg f
        (Maze.setNextDirection s c (Algo.getOppositeDirection prevd))
        (Maze.getNextDirection s c)
        (Algo.getNeighboringCell cfg c (Maze.getNextDirection s c))
        = some (s', e)
      rw [hdir]
      exact hA
    · intro x hx
      rw [hcells] at hx
      simp only [List.mem_cons, not_or] at hx
      obtain ⟨hB1, hB2⟩ := hB x hx.2
      exact ⟨by rw [hB1, (setNextDirection_point s c _ x).1, if_neg hx.1],
        by rw [hB2, (setNextDirection_point s c _ x).2, if_neg hx.1]⟩
    · rw [revDirs_cons]
      refine FwdChain_append cfg s' _ _ e c _ hC
        ⟨opp_lt_four prevd, hcval, ?_, ?_, hnbr, rfl⟩
      · show s'.hasNext c = true
        rw [(hB c hcnot).1, (setNextDirection_point s c _ c).1, if_pos rfl]
      · show s'.nextDir c = Algo.getOppositeDirection prevd
        rw [(hB c hcnot).2, (setNextDirection_point s c _ c).2, if_pos rfl]
    · rw [revDirs_cons, chainCellsList_append, hE, hD, hcells]
      rw [show ((chainCellsList cfg (Algo.getNeighboringCell cfg c d)
          rest).reverse ++ [c]).dropLast
        = (chainCellsList cfg (Algo.getNeighboringCell cfg c d) rest).reverse
        from by simp]
      simp [chainCellsList, List.reverse_cons]
    · rw [revDirs_cons, chainEnd_append, hE]
      rfl

/-- C8: the path-reversal step (`reverseLinkedList`) is its own inverse.
For every backward chain of next pointers rooted at a goal cell `c0`,
walking direction list `ds` to the start cell `e` through pairwise distinct
cells, and enough fuel for the loop: reversing from `c0` returns `e` and
leaves the reversed chain (`revDirs ds`, rooted at `e`, back to `c0`), and
reversing that chain from `e` returns `c0` and reproduces the original
backward chain, cell for cell (the same direction list `ds` from `c0`
to `e`). -/
theorem claim_C8_reverse_involution (cfg : Cfg) (s : St) (c0 e : Nat)
    (ds : List Nat) (hch : BackChain cfg s c0 ds e)
    (hnd : (chainCellsList cfg c0 ds).Nodup)
    (fuel : Nat) (hfuel : ds.length + 1 ≤ fuel) :
    ∃ s1 s2,
      Algo.reverseLinkedList cfg fuel s c0 = some (s1, e) ∧
      BackChain cfg s1 e (revDirs ds) c0 ∧
      Algo.reverseLinkedList cfg fuel s1 e = some (s2, c0) ∧
      BackChain cfg s2 c0 ds e := by
  cases ds with
  | nil => exact hch.elim
  | cons d rest =>
  obtain ⟨hd4, h0val, hdir, hnb, hwalk⟩ := hch
  have hspec0 := neighbor_spec cfg c0 d h0val hd4 hnb
  have hcells0 : chainCellsList cfg c0 (d :: rest)
      = c0 :: chainCellsList cfg (Algo.getNeighboringCell cfg c0 d) rest := rfl
  rw [hcells0] at hnd
  have hc0not :
      c0 ∉ chainCellsList cfg (Algo.getNeighboringCell cfg c0 d) rest :=
    (List.nodup_cons.mp hnd).1
  have hnd' :
      (chainCellsList cfg (Algo.getNeighboringCell cfg c0 d) rest).Nodup :=
    (List.nodup_cons.mp hnd).2
  have hch0 : WalkChain cfg (Maze.clearNext s c0)
      (Algo.getNeighboringCell cfg c0 d) rest e := by
    refine WalkChain_congr cfg s _ rest _ e hwalk ?_
    intro x hx
    have hxc : x ≠ c0 := fun h => hc0not (h ▸ hx)
    exact ⟨by rw [(clearNext_point s c0 x).1, if_neg hxc],
      (clearNext_point s c0 x).2⟩
  obtain ⟨s1, hA1, hB1, hC1, hD1, hE1⟩ :=
    revLLAux_walk cfg rest (Maze.clearNext s c0)
      (Algo.getNeighboringCell cfg c0 d) d e fuel hch0 hnd' hspec0.2.1
      (by simp only [List.length_cons] at hfuel; omega)
  rw [hspec0.2.2.1] at hC1 hD1
  have hs1c0 : Maze.hasNext s1 c0 = false := by
    show s1.hasNext c0 = false
    rw [(hB1 c0 hc0not).1, (clearNext_point s c0 c0).1, if_pos rfl]
  obtain ⟨δ, tail, hLeq⟩ :
      ∃ δ tail, revDirs rest ++ [Algo.getOppositeDirection d] = δ :: tail :=
    List.exists_cons_of_ne_nil (by simp)
  rw [hLeq] at hC1 hD1
  obtain ⟨hδ4, heval, hs1e_hn, hs1e_dir, hnbe, hfwdtail⟩ := hC1
  have hspece := neighbor_spec cfg e δ heval hδ4 hnbe
  have hwalk1 : WalkChain cfg s1 (Algo.getNeighboringCell cfg e δ) tail c0 :=
    FwdChain_toWalk cfg s1 tail _ c0 hfwdtail hs1c0 h0val
  have hnd2 : (chainCellsList cfg e (δ :: tail)).Nodup := by
    rw [hD1]
    exact ((List.perm_append_singleton c0 _).trans
      ((List.reverse_perm _).cons c0)).symm.nodup hnd
  rw [show chainCellsList cfg e (δ :: tail)
      = e :: chainCellsList cfg (Algo.getNeighboringCell cfg e δ) tail
      from rfl] at hnd2
  have henot :
      e ∉ chainCellsList cfg (Algo.getNeighboringCell cfg e δ) tail :=
    (List.nodup_cons.mp hnd2).1
  have hndtail :
      (chainCellsList cfg (Algo.getNeighboringCell cfg e δ) tail).Nodup :=
    (List.nodup_cons.mp hnd2).2
  have hch2 : WalkChain cfg (Maze.clearNext s1 e)
      (Algo.getNeighboringCell cfg e δ) tail c0 := by
    refine WalkChain_congr cfg s1 _ tail _ c0 hwalk1 ?_
    intro x hx
    have hxe : x ≠ e := fun h => henot (h ▸ hx)
    exact ⟨by rw [(clearNext_point s1 e x).1, if_neg hxe],
      (clearNext_point s1 e x).2⟩
  have hlen : tail.length = rest.length := by
    have := congrArg List.length hLeq
    simp only [List.length_append, List.length_cons, List.length_nil,
      revDirs_length] at this
    omega
  obtain ⟨s2, hA2, hB2, hC2, hD2, hE2⟩ :=
    revLLAux_walk cfg tail (Maze.clearNext s1 e)
      (Algo.getNeighboringCell cfg e δ) δ c0 fuel hch2 hndtail hspece.2.1
      (by simp only [List.length_cons] at hfuel; omega)
  have hdirs4 : ∀ x ∈ d :: rest, x < 4 := by
    intro x hx
    rcases List.mem_cons.mp hx with rfl | hx'
    · exact hd4
    · exact WalkChain_dirs_lt cfg s rest _ e hwalk x hx'
  have hdd : revDirs tail ++ [Algo.getOppositeDirection δ] = d :: rest := by
    calc revDirs tail ++ [Algo.getOppositeDirection δ]
        = revDirs (δ :: tail) := (revDirs_cons δ tail).symm
      _ = revDirs (revDirs rest ++ [Algo.getOppositeDirection d]) := by
          rw [hLeq]
      _ = revDirs (revDirs (d :: rest)) := by rw [revDirs_cons]
      _ = d :: rest := revDirs_revDirs _ hdirs4
  rw [hdd, hspece.2.2.1] at hC2
  have hs2e : Maze.hasNext s2 e = false := by
    show s2.hasNext e = false
    rw [(hB2 e henot).1, (clearNext_point s1 e e).1, if_pos rfl]
  refine ⟨s1, s2, ?_, ?_, ?_, ?_⟩
  · show Algo.revLLAux cfg fuel (Maze.clearNext s c0)
      (Maze.getNextDirection s c0)
      (Algo.getNeighboringCell cfg c0 (Maze.getNextDirection s c0))
      = some (s1, e)
    rw [hdir]
    exact hA1
  · rw [revDirs_cons, hLeq]
    exact ⟨hδ4, heval, hs1e_dir, hnbe, hwalk1⟩
  · show Algo.revLLAux cfg fuel (Maze.clearNext s1 e)
      (Maze.getNextDirection s1 e)
      (Algo.getNeighboringCell cfg e (Maze.getNextDirection s1 e))
      = some (s2, c0)
    rw [hs1e_dir]
    exact hA2
  · exact FwdChain_toBack cfg s2 (d :: rest) c0 e (List.cons_ne_nil d rest)
      hC2 hs2e heval

/-! ## Claim C9: the sensing phase -/

theorem one_shift_ne_zero (k : Nat) : (1 : Nat) <<< k ≠ 0 := by
  rw [Nat.shiftLeft_eq, Nat.one_mul]
  exact (Nat.pos_pow_of_pos k (by decide)).ne'

theorem or_eq_zero_left (a b : Nat) (h : a ||| b = 0) : a = 0 := by
  apply Nat.eq_of_testBit_eq
  intro k
  have hb := congrArg (fun n => Nat.testBit n k) h
  simp only [Nat.testBit_or, Nat.zero_testBit, Bool.or_eq_false_iff] at hb
  rw [Nat.zero_testBit]
  exact hb.1

theorem or_eq_zero_right (a b : Nat) (h : a ||| b = 0) : b = 0 := by
  apply Nat.eq_of_testBit_eq
  intro k
  have hb := congrArg (fun n => Nat.testBit n k) h
  simp only [Nat.testBit_or, Nat.zero_testBit, Bool.or_eq_false_iff] at hb
  rw [Nat.zero_testBit]
  exact hb.2

theorem readWall_congr (api : Api) (s s' : St) (d : Nat) (hx : s'.mx = s.mx)
    (hy : s'.my = s.my) (hd : s'.md = s.md) :
    Algo.readWall api s' d = Algo.readWall api s d := by
  unfold Algo.readWall
  rw [hx, hy, hd]

/-- Full behaviour of one sensing iteration: everything but walls is
untouched; an already-known direction makes the iteration a no-op; an
unknown direction is learned with the sensor value and makes the history
data nonzero; walls outside the sensed pair are untouched; the data word
never becomes zero again. -/
theorem readWallsIter_char (cfg : Cfg) (api : Api) (s : St) (data i : Nat) :
    wallsOnlyExt s (Algo.readWallsIter cfg api (s, data) i).1 ∧
    (Maze.isKnown s (Maze.getCell cfg s.mx s.my) ((s.md + i + 3) % 4) = true →
      Algo.readWallsIter cfg api (s, data) i = (s, data)) ∧
    (Maze.isKnown s (Maze.getCell cfg s.mx s.my) ((s.md + i + 3) % 4) = false →
      (Algo.readWallsIter cfg api (s, data) i).1.known
          (Maze.getCell cfg s.mx s.my) ((s.md + i + 3) % 4) = true ∧
      (Algo.readWallsIter cfg api (s, data) i).1.wallp
          (Maze.getCell cfg s.mx s.my) ((s.md + i + 3) % 4)
        = Algo.readWall api s ((s.md + i + 3) % 4) ∧
      (Algo.readWallsIter cfg api (s, data) i).2 ≠ 0) ∧
    (∀ c d,
      ¬ wallTouch cfg (Maze.getCell cfg s.mx s.my) ((s.md + i + 3) % 4) c d →
      (Algo.readWallsIter cfg api (s, data) i).1.known c d = s.known c d ∧
      (Algo.readWallsIter cfg api (s, data) i).1.wallp c d = s.wallp c d) ∧
    ((Algo.readWallsIter cfg api (s, data) i).2 = 0 → data = 0) := by
  unfold Algo.readWallsIter
  simp only []
  by_cases hk : Maze.isKnown s (Maze.getCell cfg s.mx s.my)
      ((s.md + i + 3) % 4) = true
  · rw [if_pos hk]
    exact ⟨wallsOnlyExt_refl s, fun _ => rfl,
      fun hf => absurd (hk.symm.trans hf) (by decide),
      fun c d _ => ⟨rfl, rfl⟩, fun h => h⟩
  · rw [if_neg hk]
    simp only []
    have hdz : (if Algo.readWall api s ((s.md + i + 3) % 4) = true then
        data ||| 1 <<< ((s.md + i + 3) % 4 + 4) ||| 1 <<< ((s.md + i + 3) % 4)
        else data ||| 1 <<< ((s.md + i + 3) % 4 + 4)) ≠ 0 := by
      split
      · intro h0
        exact one_shift_ne_zero _ (or_eq_zero_right _ _ (or_eq_zero_left _ _ h0))
      · intro h0
        exact one_shift_ne_zero _ (or_eq_zero_right _ _ h0)
    refine ⟨?_, ?_, ?_, ?_, ?_⟩
    · exact setCellWall_wallsOnlyExt cfg s _ _ _
    · intro ht
      exact absurd ht hk
    · intro _
      have hpt := (setCellWall_point cfg s (Maze.getCell cfg s.mx s.my)
        ((s.md + i + 3) % 4) (Algo.readWall api s ((s.md + i + 3) % 4))
        (Maze.getCell cfg s.mx s.my) ((s.md + i + 3) % 4)).1
        (Or.inl ⟨rfl, rfl⟩)
      exact ⟨hpt.1, hpt.2, hdz⟩
    · intro c d hnt
      exact (setCellWall_point cfg s (Maze.getCell cfg s.mx s.my)
        ((s.md + i + 3) % 4) (Algo.readWall api s ((s.md + i + 3) % 4))
        c d).2 (fun ht => hnt ht)
    · intro h0
      exact absurd h0 hdz

/-- C9: the sensing phase of a step examines only the walls to the left,
front and right of the current heading; a direction already known is left
untouched (its stored value is not overwritten by the sensors), a direction
not yet known receives exactly the sensor reading `readWall`; walls outside
the sensed sides (and their mirror sides) are unchanged; and one history
entry for the current cell is appended exactly when at least one sensed
direction was previously unknown — never more than one entry per step. -/
theorem claim_C9_sensing (cfg : Cfg) (api : Api) (s : St)
    (hmd : s.md < 4) (hH : 0 < cfg.H) :
    (∀ c d,
      ¬ (∃ δ ∈ sensedDirs s, wallTouch cfg (Maze.getCell cfg s.mx s.my) δ c d) →
      (Algo.readWalls cfg api s).known c d = s.known c d ∧
      (Algo.readWalls cfg api s).wallp c d = s.wallp c d) ∧
    (∀ δ ∈ sensedDirs s,
      Maze.isKnown s (Maze.getCell cfg s.mx s.my) δ = true →
      (Algo.readWalls cfg api s).known (Maze.getCell cfg s.mx s.my) δ
        = s.known (Maze.getCell cfg s.mx s.my) δ ∧
      (Algo.readWalls cfg api s).wallp (Maze.getCell cfg s.mx s.my) δ
        = s.wallp (Maze.getCell cfg s.mx s.my) δ) ∧
    (∀ δ ∈ sensedDirs s,
      Maze.isKnown s (Maze.getCell cfg s.mx s.my) δ = false →
      (Algo.readWalls cfg api s).known (Maze.getCell cfg s.mx s.my) δ = true ∧
      (Algo.readWalls cfg api s).wallp (Maze.getCell cfg s.mx s.my) δ
        = Algo.readWall api s δ) ∧
    ((∀ δ ∈ sensedDirs s,
        Maze.isKnown s (Maze.getCell cfg s.mx s.my) δ = true) →
      (Algo.readWalls cfg api s).hist = s.hist) ∧
    ((∃ δ ∈ sensedDirs s,
        Maze.isKnown s (Maze.getCell cfg s.mx s.my) δ = false) →
      ∃ data, data ≠ 0 ∧
        (Algo.readWalls cfg api s).hist
          = (Maze.getCell cfg s.mx s.my, data) :: s.hist) ∧
    sensedDirs s = [(s.md + 3) % 4, s.md, (s.md + 1) % 4] := by
  have hne01 : (s.md + 3) % 4 ≠ (s.md + 4) % 4 := by omega
  have hne02 : (s.md + 3) % 4 ≠ (s.md + 5) % 4 := by omega
  have hne12 : (s.md + 4) % 4 ≠ (s.md + 5) % 4 := by omega
  -- a sensed-side write never lands on another direction of the current cell
  have hcur_untouched : ∀ δ' d', d' ≠ δ' →
      ¬ wallTouch cfg (Maze.getCell cfg s.mx s.my) δ'
        (Maze.getCell cfg s.mx s.my) d' := by
    intro δ' d' hne ht
    rcases ht with ⟨-, h2⟩ | ⟨hnb, hc, -⟩
    · exact hne h2
    · exact nbr_ne cfg (Maze.getCell cfg s.mx s.my) δ' hH hnb hc.symm
  -- name the three pipeline stages
  obtain ⟨sd1, hsd1⟩ : ∃ p, Algo.readWallsIter cfg api (s, 0) 0 = p := ⟨_, rfl⟩
  obtain ⟨sd2, hsd2⟩ : ∃ p, Algo.readWallsIter cfg api sd1 1 = p := ⟨_, rfl⟩
  obtain ⟨sd3, hsd3⟩ : ∃ p, Algo.readWallsIter cfg api sd2 2 = p := ⟨_, rfl⟩
  have hmaster : Algo.readWalls cfg api s
      = { sd3.1 with hist :=
            History.add (Maze.getCell cfg s.mx s.my) sd3.2 sd3.1.hist } := by
    rw [← hsd3, ← hsd2, ← hsd1]
    rfl
  -- stage 1 facts
  have h1 := readWallsIter_char cfg api s 0 0
  rw [hsd1, show (s.md + 0 + 3) % 4 = (s.md + 3) % 4 from by omega] at h1
  obtain ⟨hext1, hkn1, hun1, hfr1, hz1⟩ := h1
  obtain ⟨-, -, -, -, -, hhist1, hmx1, hmy1, hmd1, -, -, -⟩ := hext1
  -- stage 2 facts
  have h2 := readWallsIter_char cfg api sd1.1 sd1.2 1
  rw [Prod.mk.eta, hsd2, hmx1, hmy1, hmd1,
    show (s.md + 1 + 3) % 4 = (s.md + 4) % 4 from by omega] at h2
  obtain ⟨hext2, hkn2, hun2, hfr2, hz2⟩ := h2
  obtain ⟨-, -, -, -, -, hhist2, hmx2, hmy2, hmd2, -, -, -⟩ := hext2
  rw [hhist1] at hhist2
  rw [hmx1] at hmx2
  rw [hmy1] at hmy2
  rw [hmd1] at hmd2
  -- stage 3 facts
  have h3 := readWallsIter_char cfg api sd2.1 sd2.2 2
  rw [Prod.mk.eta, hsd3, hmx2, hmy2, hmd2,
    show (s.md + 2 + 3) % 4 = (s.md + 5) % 4 from by omega] at h3
  obtain ⟨hext3, hkn3, hun3, hfr3, hz3⟩ := h3
  obtain ⟨-, -, -, -, -, hhist3, -, -, -, -, -, -⟩ := hext3
  rw [hhist2] at hhist3
  -- projection equations for the final state
  have hknownEq : (Algo.readWalls cfg api s).known = sd3.1.known := by
    rw [hmaster]
  have hwallpEq : (Algo.readWalls cfg api s).wallp = sd3.1.wallp := by
    rw [hmaster]
  have hhistEq : (Algo.readWalls cfg api s).hist
      = History.add (Maze.getCell cfg s.mx s.my) sd3.2 sd3.1.hist := by
    rw [hmaster]
  -- per-direction frame steps on the current cell
  have hch01 : ∀ d', d' ≠ (s.md + 3) % 4 →
      sd1.1.known (Maze.getCell cfg s.mx s.my) d'
        = s.known (Maze.getCell cfg s.mx s.my) d' ∧
      sd1.1.wallp (Maze.getCell cfg s.mx s.my) d'
        = s.wallp (Maze.getCell cfg s.mx s.my) d' :=
    fun d' hne => hfr1 _ d' (hcur_untouched _ _ hne)
  have hch12 : ∀ d', d' ≠ (s.md + 4) % 4 →
      sd2.1.known (Maze.getCell cfg s.mx s.my) d'
        = sd1.1.known (Maze.getCell cfg s.mx s.my) d' ∧
      sd2.1.wallp (Maze.getCell cfg s.mx s.my) d'
        = sd1.1.wallp (Maze.getCell cfg s.mx s.my) d' :=
    fun d' hne => hfr2 _ d' (hcur_untouched _ _ hne)
  have hch23 : ∀ d', d' ≠ (s.md + 5) % 4 →
      sd3.1.known (Maze.getCell cfg s.mx s.my) d'
        = sd2.1.known (Maze.getCell cfg s.mx s.my) d' ∧
      sd3.1.wallp (Maze.getCell cfg s.mx s.my) d'
        = sd2.1.wallp (Maze.getCell cfg s.mx s.my) d' :=
    fun d' hne => hfr3 _ d' (hcur_untouched _ _ hne)
  refine ⟨?_, ?_, ?_, ?_, ?_, ?_⟩
  · -- untouched walls
    intro c d hnt
    have hn1 : ¬ wallTouch cfg (Maze.getCell cfg s.mx s.my) ((s.md + 3) % 4)
        c d := fun ht => hnt ⟨_, by simp [sensedDirs], ht⟩
    have hn2 : ¬ wallTouch cfg (Maze.getCell cfg s.mx s.my) ((s.md + 4) % 4)
        c d := fun ht => hnt ⟨_, by simp [sensedDirs], ht⟩
    have hn3 : ¬ wallTouch cfg (Maze.getCell cfg s.mx s.my) ((s.md + 5) % 4)
        c d := fun ht => hnt ⟨_, by simp [sensedDirs], ht⟩
    rw [hknownEq, hwallpEq]
    constructor
    · rw [(hfr3 c d hn3).1, (hfr2 c d hn2).1, (hfr1 c d hn1).1]
    · rw [(hfr3 c d hn3).2, (hfr2 c d hn2).2, (hfr1 c d hn1).2]
  · -- already-known sensed directions stay untouched
    intro δ hδ hk
    rw [hknownEq, hwallpEq]
    have hδ' : δ = (s.md + 3) % 4 ∨ δ = (s.md + 4) % 4 ∨ δ = (s.md + 5) % 4 := by
      simpa [sensedDirs] using hδ
    rcases hδ' with rfl | rfl | rfl
    · have hid1 := hkn1 hk
      have hs1 : sd1.1 = s := by rw [hid1]
      constructor
      · rw [(hch23 _ (Ne.symm hne02).symm).1, (hch12 _ hne01).1, hs1]
      · rw [(hch23 _ hne02).2, (hch12 _ hne01).2, hs1]
    · have hk1 : Maze.isKnown sd1.1 (Maze.getCell cfg s.mx s.my)
          ((s.md + 4) % 4) = true := by
        show sd1.1.known _ _ = true
        rw [(hch01 _ (Ne.symm hne01)).1]
        exact hk
      have hid2 := hkn2 hk1
      have hs2 : sd2.1 = sd1.1 := by rw [hid2]
      constructor
      · rw [(hch23 _ hne12).1, hs2, (hch01 _ (Ne.symm hne01)).1]
      · rw [(hch23 _ hne12).2, hs2, (hch01 _ (Ne.symm hne01)).2]
    · have hk2 : Maze.isKnown sd2.1 (Maze.getCell cfg s.mx s.my)
          ((s.md + 5) % 4) = true := by
        show sd2.1.known _ _ = true
        rw [(hch12 _ (Ne.symm hne12)).1, (hch01 _ (Ne.symm hne02)).1]
        exact hk
      have hid3 := hkn3 hk2
      have hs3 : sd3.1 = sd2.1 := by rw [hid3]
      constructor
      · rw [hs3, (hch12 _ (Ne.symm hne12)).1, (hch01 _ (Ne.symm hne02)).1]
      · rw [hs3, (hch12 _ (Ne.symm hne12)).2, (hch01 _ (Ne.symm hne02)).2]
  · -- unknown sensed directions are learned with the sensor value
    intro δ hδ hk
    rw [hknownEq, hwallpEq]
    have hδ' : δ = (s.md + 3) % 4 ∨ δ = (s.md + 4) % 4 ∨ δ = (s.md + 5) % 4 := by
      simpa [sensedDirs] using hδ
    rcases hδ' with rfl | rfl | rfl
    · obtain ⟨hk', hw', -⟩ := hun1 hk
      constructor
      · rw [(hch23 _ hne02).1, (hch12 _ hne01).1, hk']
      · rw [(hch23 _ hne02).2, (hch12 _ hne01).2, hw']
    · have hk1 : Maze.isKnown sd1.1 (Maze.getCell cfg s.mx s.my)
          ((s.md + 4) % 4) = false := by
        show sd1.1.known _ _ = false
        rw [(hch01 _ (Ne.symm hne01)).1]
        exact hk
      obtain ⟨hk', hw', -⟩ := hun2 hk1
      constructor
      · rw [(hch23 _ hne12).1, hk']
      · rw [(hch23 _ hne12).2, hw',
          readWall_congr api s sd1.1 _ hmx1 hmy1 hmd1]
    · have hk2 : Maze.isKnown sd2.1 (Maze.getCell cfg s.mx s.my)
          ((s.md + 5) % 4) = false := by
        show sd2.1.known _ _ = false
        rw [(hch12 _ (Ne.symm hne12)).1, (hch01 _ (Ne.symm hne02)).1]
        exact hk
      obtain ⟨hk', hw', -⟩ := hun3 hk2
      refine ⟨hk', ?_⟩
      rw [hw', readWall_congr api s sd2.1 _ hmx2 hmy2 hmd2]
  · -- all sensed directions known: no history entry
    intro hall
    have hk0 := hall ((s.md + 3) % 4) (by simp [sensedDirs])
    have hid1 := hkn1 hk0
    have hs1 : sd1.1 = s := by rw [hid1]
    have hd1 : sd1.2 = 0 := by rw [hid1]
    have hk1 : Maze.isKnown sd1.1 (Maze.getCell cfg s.mx s.my)
        ((s.md + 4) % 4) = true := by
      rw [hs1]
      exact hall ((s.md + 4) % 4) (by simp [sensedDirs])
    have hid2 := hkn2 hk1
    have hs2 : sd2.1 = sd1.1 := by rw [hid2]
    have hd2 : sd2.2 = sd1.2 := by rw [hid2]
    have hk2 : Maze.isKnown sd2.1 (Maze.getCell cfg s.mx s.my)
        ((s.md + 5) % 4) = true := by
      rw [hs2, hs1]
      exact hall ((s.md + 5) % 4) (by simp [sensedDirs])
    have hid3 := hkn3 hk2
    have hd3 : sd3.2 = sd2.2 := by rw [hid3]
    rw [hhistEq, hd3, hd2, hd1]
    simp [History.add, hhist3]
  · -- some sensed direction unknown: exactly one history entry is appended
    intro hsome
    have hd3ne : sd3.2 ≠ 0 := by
      obtain ⟨δ, hδ, hk⟩ := hsome
      have hδ' : δ = (s.md + 3) % 4 ∨ δ = (s.md + 4) % 4 ∨
          δ = (s.md + 5) % 4 := by
        simpa [sensedDirs] using hδ
      rcases hδ' with rfl | rfl | rfl
      · obtain ⟨-, -, hne⟩ := hun1 hk
        intro h0
        exact hne (hz2 (hz3 h0))
      · have hk1 : Maze.isKnown sd1.1 (Maze.getCell cfg s.mx s.my)
            ((s.md + 4) % 4) = false := by
          show sd1.1.known _ _ = false
          rw [(hch01 _ (Ne.symm hne01)).1]
          exact hk
        obtain ⟨-, -, hne⟩ := hun2 hk1
        intro h0
        exact hne (hz3 h0)
      · have hk2 : Maze.isKnown sd2.1 (Maze.getCell cfg s.mx s.my)
            ((s.md + 5) % 4) = false := by
          show sd2.1.known _ _ = false
          rw [(hch12 _ (Ne.symm hne12)).1, (hch01 _ (Ne.symm hne02)).1]
          exact hk
        obtain ⟨-, -, hne⟩ := hun3 hk2
        exact hne
    refine ⟨sd3.2, hd3ne, ?_⟩
    rw [hhistEq, hhist3]
    simp [History.add, hd3ne]
  · -- the sensed directions are left, front, right
    have h4 : s.md = 0 ∨ s.md = 1 ∨ s.md = 2 ∨ s.md = 3 := by omega
    rcases h4 with h4 | h4 | h4 | h4 <;> simp [sensedDirs, h4]

/-- Witness for C9: sensing from the freshly initialised 2×2 maze appends
one history entry, since the north wall of (0,0) is unknown there. -/
theorem claim_C9_sensing_witness :
    ∃ data, data ≠ 0 ∧
      (Algo.readWalls cfg2 api2 (Algo.initState cfg2)).hist
        = (Maze.getCell cfg2 (Algo.initState cfg2).mx
            (Algo.initState cfg2).my, data) :: (Algo.initState cfg2).hist :=
  (claim_C9_sensing cfg2 api2 (Algo.initState cfg2) (by decide)
    (by decide)).2.2.2.2.1 ⟨0, by decide, by decide⟩

/-- Witness for C8: the concrete chain (0,0)→(0,1)→(1,1) on the 2×2 grid,
reversed twice. -/
theorem claim_C8_reverse_involution_witness :
    ∃ s1 s2,
      Algo.reverseLinkedList cfg2 5 chainSt 0 = some (s1, 3) ∧
      BackChain cfg2 s1 3 (revDirs [0, 1]) 0 ∧
      Algo.reverseLinkedList cfg2 5 s1 3 = some (s2, 0) ∧
      BackChain cfg2 s2 0 [0, 1] 3 :=
  claim_C8_reverse_involution cfg2 chainSt 0 3 [0, 1]
    ⟨by decide, by decide, by decide, by decide, by decide, by decide,
      by decide, by decide, by decide, by decide, by decide, by decide⟩
    (by decide) 5 (by decide)

/-! ## Claims C1 and C10: the failing 2×2 run -/

/-- Witness for C3: with the reset button pending from the start, path
execution performs at most one hop. -/
theorem claim_C3_followPath_witness :
    hopsTaken cfg2 apiR 5 (Algo.initState cfg2) 0 ≤ 0 + 1 :=
  (claim_C3_followPath cfg2 apiR 5 (Algo.initState cfg2) 0).2.2.1 0 (by decide)

/-- C1, refuted as stated (code bug): in the failing 2×2 run, at the second
step's `generatePath` call the current cell (0,1) is not connected to the
center cell (1,1) under presently known open edges, yet `generatePath`
still returns a start identifier equal to the cell it was rooted at — the
path reversal follows the center cell's stale next pointer left behind by
the first pass — so the run does not enter GIVEUP mode; instead the second
step dies on a failed assertion (the `aborted` flag). -/
theorem claim_C1_disconnected_path_bug :
    connectedToGoal cfg2 failSt2
      (Maze.getCell cfg2 failSt2.mx failSt2.my) = false ∧
    (Algo.generatePath cfg2 failSt2
        (Maze.getCell cfg2 failSt2.mx failSt2.my)).map (fun p => p.2)
      = some (Maze.getCell cfg2 failSt2.mx failSt2.my) ∧
    (Algo.runLoopN cfg2 api2 2 (Algo.initState cfg2)).mode ≠ Mode.GIVEUP ∧
    (Algo.runLoopN cfg2 api2 2 (Algo.initState cfg2)).aborted = true :=
  ⟨by decide, by decide, by decide, by decide⟩

/-- C10, refuted (the abort branch of `moveOneCell` is reachable): in the
failing run, the second step's `followPath` executes its first hop — the
planned chain at the returned start cell has a next pointer with a known
wall status — but the edge's wall is known PRESENT (the stale path crosses
the wall east of (0,1)), so the targeted cell is not one open cell away,
the `isOneCellAway` assertion inside `moveOneCell` fails, and the process
aborts. -/
theorem claim_C10_moveOneCell_abort_reachable :
    Maze.hasNext failPath.1 failPath.2 = true ∧
    Maze.isKnown failPath.1 failPath.2
      (Maze.getNextDirection failPath.1 failPath.2) = true ∧
    Algo.isOneCellAway cfg2 failPath.1
      (Algo.getNeighboringCell cfg2 failPath.2
        (Maze.getNextDirection failPath.1 failPath.2)) = false ∧
    (Algo.moveOneCell cfg2 failPath.1
      (Algo.getNeighboringCell cfg2 failPath.2
        (Maze.getNextDirection failPath.1 failPath.2))).aborted = true ∧
    (Algo.followPath cfg2 api2 failPath.1 failPath.2).aborted = true :=
  ⟨by decide, by decide, by decide, by decide, by decide⟩
